import Mathlib

/-!
Verification of the Monkey bytecode pipeline (code / compiler / symbol table / vm
packages) against its specification.  The Go source is shallowly embedded:

* machine integers (`int64`) are modelled as `Int` with explicit wrapping at the
  arithmetic operations (`wrap64`), matching Go's two's-complement semantics;
* byte slices are `List Nat` (each entry a byte value);
* fallible operations return `Option`/`Except`; a `none` or a dedicated
  `panicked` outcome marks the places where the Go runtime would panic
  (index out of range, nil dereference, integer divide by zero);
* Go maps keyed by strings are modelled as functions `String → Option _`.
-/

namespace Monkey

/-! ## Value model (package object) -/

/-- HashKey from package object: the type tag together with the 64-bit key. -/
structure HashKey where
  Type' : String
  Value : Nat
deriving DecidableEq

/-- Objects of package object that can appear in the compile/execute pipeline.
`array` elements and `hash` pair components are `Option Obj` because Go slots
of interface type may hold nil (e.g. values read from unset global slots).
A Go `map[HashKey]HashPair` is modelled as an association list updated by
replacement. -/
inductive Obj where
  | integer (value : Int)
  | boolean (value : Bool)
  | str (value : String)
  | array (elements : List (Option Obj))
  | hash (pairs : List (HashKey × Option Obj × Option Obj))
  | null

/-- Type tags as returned by the Go Type() methods. -/
def typeOf : Obj → String
  | .integer _ => "INTEGER"
  | .boolean _ => "BOOLEAN"
  | .str _ => "STRING"
  | .array _ => "ARRAY"
  | .hash _ => "HASH"
  | .null => "NULL"

/-- Wrapping into the signed 64-bit range, the semantics of every Go `int64`
arithmetic operation. -/
def wrap64 (z : Int) : Int := (z + 2 ^ 63) % 2 ^ 64 - 2 ^ 63

/-! ## Package code: opcode definitions and the codec -/

/-- Opcode byte values, in the order of the Go `iota` block. -/
def opConstant : Nat := 0

def opAdd : Nat := 1

def opPop : Nat := 2

def opSub : Nat := 3

def opMul : Nat := 4

def opDiv : Nat := 5

def opTrue : Nat := 6

def opFalse : Nat := 7

def opEqual : Nat := 8

def opNotEqual : Nat := 9

def opGreaterThan : Nat := 10

def opMinus : Nat := 11

def opBang : Nat := 12

def opJumpNotTruthy : Nat := 13

def opJump : Nat := 14

def opNull : Nat := 15

def opGetGlobal : Nat := 16

def opSetGlobal : Nat := 17

def opArray : Nat := 18

def opHash : Nat := 19

def opIndex : Nat := 20

/-- The `definitions` table: name and operand widths per opcode.  The Go map is
keyed by the dense opcode bytes 0..20, so a list indexed by position is the
same mapping. -/
def definitions : List (String × List Nat) :=
  [("OpConstant", [2]), ("OpAdd", []), ("OpPop", []), ("OpSub", []),
   ("OpMul", []), ("OpDiv", []), ("OpTrue", []), ("OpFalse", []),
   ("OpEqual", []), ("OpNotEqual", []), ("OpGreaterThan", []), ("OpMinus", []),
   ("OpBang", []), ("OpJumpNotTruthy", [2]), ("OpJump", [2]), ("OpNull", []),
   ("OpGetGlobal", [2]), ("OpSetGlobal", [2]), ("OpArray", [2]),
   ("OpHash", [2]), ("OpIndex", [])]

/-- Lookup of an opcode definition; `none` on an undefined byte. -/
def Lookup (op : Nat) : Option (String × List Nat) := definitions[op]?

/-- Lookup as the Go function returns it: the definition or the error
"opcode %d undefined". -/
def LookupE (op : Nat) : Except String (String × List Nat) :=
  match Lookup op with
  | some d => .ok d
  | none => .error ("opcode " ++ toString op ++ " undefined")

/-- Writing the operands of one instruction into the preallocated buffer.
A 2-byte operand o is written big-endian as the two bytes of `uint16(o)`,
namely `o / 256 % 256` and `o % 256`.  Returns `none` where Go panics:
when more operands are supplied than the definition has widths. -/
def writeOperands : List Nat → List Nat → Nat → List Nat → Option (List Nat)
  | _, [], _, buf => some buf
  | [], _ :: _, _, _ => none
  | w :: ws, o :: os, off, buf =>
    let buf' := if w = 2 then (buf.set off (o / 256 % 256)).set (off + 1) (o % 256) else buf
    writeOperands ws os (off + w) buf'

/-- Make from package code: encode a single instruction.  An undefined opcode
yields the empty byte slice.  The buffer is allocated at the full instruction
length up front, so missing operands leave zero bytes behind. -/
def Make (op : Nat) (operands : List Nat) : Option (List Nat) :=
  match Lookup op with
  | none => some []
  | some d =>
    let instructionLen := 1 + d.2.sum
    writeOperands d.2 operands 1 ((List.replicate instructionLen 0).set 0 op)

/-- ReadUint16: two bytes big-endian; `none` where Go would panic on a short
slice. -/
def ReadUint16 (ins : List Nat) : Option Nat :=
  match ins[0]?, ins[1]? with
  | some a, some b => some (a * 256 + b)
  | _, _ => none

/-- Helper for ReadOperands: walk the width list, decoding each operand at its
running offset. -/
def readOperandsAux : List Nat → List Nat → Nat → Option (List Nat × Nat)
  | [], _, off => some ([], off)
  | w :: ws, ins, off => do
    let v ← if w = 2 then ReadUint16 (ins.drop off) else some 0
    let rest ← readOperandsAux ws ins (off + w)
    some (v :: rest.1, rest.2)

/-- ReadOperands from package code: decode the operands of one instruction
given its definition, returning them with the number of bytes consumed. -/
def ReadOperands (d : String × List Nat) (ins : List Nat) : Option (List Nat × Nat) :=
  readOperandsAux d.2 ins 0

/-! ## Symbol table (compiler/symbol_table.go) -/

/-- A symbol: name, scope and slot index. -/
structure Symbol where
  Name : String
  Scope : String
  Index : Nat
deriving DecidableEq

/-- The symbol table; the Go `map[string]Symbol` store is a function to
`Option Symbol`. -/
structure SymbolTable where
  store : String → Option Symbol
  numDefinitions : Nat

/-- NewSymbolTable: empty store, zero definitions. -/
def NewSymbolTable : SymbolTable := ⟨fun _ => none, 0⟩

/-- Define: build a symbol whose index is the current `numDefinitions`, store
it under the name, and increment `numDefinitions`. -/
def SymbolTable.Define (st : SymbolTable) (name : String) : Symbol × SymbolTable :=
  let sym : Symbol := ⟨name, "GLOBAL", st.numDefinitions⟩
  (sym,
   { store := fun n => if n = name then some sym else st.store n,
     numDefinitions := st.numDefinitions + 1 })

/-- Resolve: look the name up in the store. -/
def SymbolTable.Resolve (st : SymbolTable) (name : String) : Option Symbol :=
  st.store name

/-! ## Codec theorems -/

/-- Every opcode definition has operand widths `[]` or `[2]`. -/
theorem widths_small : ∀ d ∈ definitions, d.2 = [] ∨ d.2 = [2] := by decide

/-- C7: for every defined opcode and legal operand tuple, decoding the bytes
produced by Make (opcode byte stripped) returns exactly the operands and the
total operand width. -/
theorem make_readOperands_roundtrip :
    ∀ (op : Nat) (d : String × List Nat) (xs : List Nat),
      Lookup op = some d → xs.length = d.2.length → (∀ x ∈ xs, x < 65536) →
      ∃ bytes, Make op xs = some bytes ∧
        ReadOperands d (bytes.drop 1) = some (xs, d.2.sum) := by
  intro op d xs hop hlen hbound
  have hd : d ∈ definitions := List.getElem?_mem hop
  rcases widths_small d hd with hw | hw
  · rw [hw] at hlen
    simp only [List.length_nil, List.length_eq_zero] at hlen
    subst hlen
    refine ⟨[op], ?_, ?_⟩
    · simp [Make, hop, hw, writeOperands]
    · simp [ReadOperands, hw, readOperandsAux]
  · rw [hw] at hlen
    simp only [List.length_singleton, List.length_eq_one] at hlen
    obtain ⟨x, rfl⟩ := hlen
    have hx : x < 65536 := hbound x (by simp)
    refine ⟨[op, x / 256 % 256, x % 256], ?_, ?_⟩
    · simp [Make, hop, hw, writeOperands, List.replicate_succ]
    · simp [ReadOperands, hw, readOperandsAux, ReadUint16]
      omega

/-- Witness for C7 at OpConstant with operand 65535. -/
theorem make_readOperands_roundtrip_witness :
    ∃ bytes, Make opConstant [65535] = some bytes ∧
      ReadOperands ("OpConstant", [2]) (bytes.drop 1) = some ([65535], [2].sum) :=
  make_readOperands_roundtrip opConstant ("OpConstant", [2]) [65535]
    (by decide) (by decide) (by decide)

/-- C8: Make writes 2-byte operands big-endian; Make(OpConstant, 65534) is
exactly the bytes [0, 0xFF, 0xFE]. -/
theorem make_opConstant_65534 :
    Make opConstant [65534] = some [opConstant, 255, 254] := by decide

/-! ## Symbol table theorems -/

/-- C5 counterexample: a second Define of the same name allocates a fresh
index (1), not the existing slot index (0). -/
theorem define_twice_fresh_index :
    ((NewSymbolTable.Define "a").2.Define "a").1.Index = 1 ∧
      (NewSymbolTable.Define "a").1.Index = 0 ∧
      ((NewSymbolTable.Define "a").2.Define "a").1.Index ≠
        (NewSymbolTable.Define "a").1.Index := by
  refine ⟨rfl, rfl, ?_⟩
  decide

/-- C5 amended: Define of an already-present name overwrites the store entry
but assigns the fresh index `numDefinitions` (allocating a new slot) and
increments the counter; Resolve afterwards returns the new symbol. -/
theorem define_overwrites_with_fresh_index (st : SymbolTable) (name : String) :
    (st.Define name).1.Index = st.numDefinitions ∧
      (st.Define name).2.numDefinitions = st.numDefinitions + 1 ∧
      (st.Define name).2.Resolve name = some (st.Define name).1 := by
  refine ⟨rfl, rfl, ?_⟩
  simp [SymbolTable.Define, SymbolTable.Resolve]

/-! ## AST (package ast)

The interface-based AST becomes a tagged sum.  Token fields (positions and
literals used only for printing) are omitted; payloads that the compiler can
inspect are kept.  `Identifier` fields inside let/function nodes are reduced
to their string value. -/

mutual

inductive Expr where
  | Identifier (value : String)
  | PrefixExpression (operator : String) (right : Expr)
  | InfixExpression (left : Expr) (operator : String) (right : Expr)
  | IntegerLiteral (value : Int)
  | Boolean (value : Bool)
  | IfExpression (condition : Expr) (consequence : Stmt) (alternative : Option Stmt)
  | StringLiteral (value : String)
  | FunctionLiteral (parameters : List String) (body : Stmt)
  | CallExpression (function : Expr) (args : List Expr)
  | ArrayLiteral (elements : List Expr)

inductive Stmt where
  | LetStatement (name : String) (value : Expr)
  | ReturnStatement (returnValue : Expr)
  | ExpressionStatement (expression : Expr)
  | BlockStatement (statements : List Stmt)

end

/-! ## Compiler (compiler/compiler.go) -/

/-- Compiler state: the instruction byte stream and the constants pool. -/
structure Compiler where
  instructions : List Nat
  constants : List Obj

/-- New: empty instructions and constants. -/
def NewCompiler : Compiler := ⟨[], []⟩

/-- addConstant: append the object, return the new state and the index of the
appended constant. -/
def addConstant (c : Compiler) (obj : Obj) : Compiler × Nat :=
  ({ c with constants := c.constants ++ [obj] }, c.constants.length)

/-- emit: encode one instruction with Make and append it.  The compiler only
calls Make with operand tuples matching the definition, so the `none` (Go
panic) branch of Make is unreachable here and `getD []` is exact. -/
def emit (c : Compiler) (op : Nat) (operands : List Nat) : Compiler :=
  { c with instructions := c.instructions ++ (Make op operands).getD [] }

/-- Compile, expression part of the Go type switch.  Only InfixExpression
(with operators + - * /) and IntegerLiteral have cases; every other
expression variant falls through the switch and returns nil without
emitting anything. -/
def compileExpr (c : Compiler) : Expr → Except String Compiler
  | .InfixExpression left operator right => do
    let c ← compileExpr c left
    let c ← compileExpr c right
    if operator = "+" then .ok (emit c opAdd [])
    else if operator = "-" then .ok (emit c opSub [])
    else if operator = "*" then .ok (emit c opMul [])
    else if operator = "/" then .ok (emit c opDiv [])
    else .error ("unknown operator " ++ operator)
  | .IntegerLiteral value =>
    let p := addConstant c (.integer value)
    .ok (emit p.1 opConstant [p.2])
  | _ => .ok c

/-- Compile, statement part of the Go type switch.  Only ExpressionStatement
has a case (compile the expression, then emit OpPop); let, return and block
statements fall through and compile to nothing. -/
def compileStmt (c : Compiler) : Stmt → Except String Compiler
  | .ExpressionStatement expression => do
    let c ← compileExpr c expression
    .ok (emit c opPop [])
  | _ => .ok c

/-- Compile on *ast.Program: compile each statement in order. -/
def compileStmts (c : Compiler) : List Stmt → Except String Compiler
  | [] => .ok c
  | s :: rest => do
    let c ← compileStmt c s
    compileStmts c rest

/-- Compile of a whole program starting from a fresh compiler. -/
def compileProgram (p : List Stmt) : Except String Compiler :=
  compileStmts NewCompiler p

/-! ## Compiler theorems -/

/-- Reduction of bind on a successful Except computation. -/
theorem ok_bind {α β ε : Type} (a : α) (f : α → Except ε β) :
    (Except.ok a >>= f) = f a := rfl

/-- C3 counterexample: compiling `1 < 2` reports "unknown operator <" instead
of emitting OpGreaterThan with swapped operands. -/
theorem compile_lt_is_error :
    compileExpr NewCompiler
        (.InfixExpression (.IntegerLiteral 1) "<" (.IntegerLiteral 2)) =
      .error "unknown operator <" := by
  rfl

/-- C3 amended: for every infix expression the compiler first compiles L, then
R in the state left by L; for `<` (and any operator outside + - * /) it then
reports an unknown-operator error, while for + - * / it emits the matching
arithmetic opcode. -/
theorem compile_infix_order (c cl cr : Compiler) (l r : Expr)
    (hl : compileExpr c l = .ok cl) (hr : compileExpr cl r = .ok cr) :
    compileExpr c (.InfixExpression l "<" r) = .error "unknown operator <" ∧
      compileExpr c (.InfixExpression l "+" r) = .ok (emit cr opAdd []) ∧
      compileExpr c (.InfixExpression l "-" r) = .ok (emit cr opSub []) ∧
      compileExpr c (.InfixExpression l "*" r) = .ok (emit cr opMul []) ∧
      compileExpr c (.InfixExpression l "/" r) = .ok (emit cr opDiv []) := by
  refine ⟨?_, ?_, ?_, ?_, ?_⟩ <;> simp [compileExpr, hl, hr, ok_bind]

/-- Witness for C3 at `1 ? 2` with the concrete intermediate compiler
states. -/
theorem compile_infix_order_witness :
    compileExpr NewCompiler
        (.InfixExpression (.IntegerLiteral 1) "<" (.IntegerLiteral 2)) =
      .error "unknown operator <" ∧
      compileExpr NewCompiler
          (.InfixExpression (.IntegerLiteral 1) "+" (.IntegerLiteral 2)) =
        .ok (emit ⟨[0, 0, 0, 0, 0, 1], [.integer 1, .integer 2]⟩ opAdd []) ∧
      compileExpr NewCompiler
          (.InfixExpression (.IntegerLiteral 1) "-" (.IntegerLiteral 2)) =
        .ok (emit ⟨[0, 0, 0, 0, 0, 1], [.integer 1, .integer 2]⟩ opSub []) ∧
      compileExpr NewCompiler
          (.InfixExpression (.IntegerLiteral 1) "*" (.IntegerLiteral 2)) =
        .ok (emit ⟨[0, 0, 0, 0, 0, 1], [.integer 1, .integer 2]⟩ opMul []) ∧
      compileExpr NewCompiler
          (.InfixExpression (.IntegerLiteral 1) "/" (.IntegerLiteral 2)) =
        .ok (emit ⟨[0, 0, 0, 0, 0, 1], [.integer 1, .integer 2]⟩ opDiv []) :=
  compile_infix_order NewCompiler ⟨[0, 0, 0], [.integer 1]⟩
    ⟨[0, 0, 0, 0, 0, 1], [.integer 1, .integer 2]⟩
    (.IntegerLiteral 1) (.IntegerLiteral 2) rfl rfl

/-- C10: every AST node variant without a case in the Compile switch
(Boolean, StringLiteral, PrefixExpression, IfExpression, LetStatement,
Identifier, ArrayLiteral, and also FunctionLiteral, CallExpression,
ReturnStatement, BlockStatement) compiles without error, emitting no
instructions and no constants: the compiler state is returned unchanged.
The ast package defines no index-expression variant, so the claim's list is
covered by the variants that exist. -/
theorem compile_unhandled_nodes_silent (c : Compiler) (b : Bool)
    (s nm opr : String) (e cond fn v : Expr) (blk : Stmt) (alt : Option Stmt)
    (params : List String) (args elems : List Expr) (stmts : List Stmt) :
    compileExpr c (.Boolean b) = .ok c ∧
      compileExpr c (.StringLiteral s) = .ok c ∧
      compileExpr c (.PrefixExpression opr e) = .ok c ∧
      compileExpr c (.IfExpression cond blk alt) = .ok c ∧
      compileStmt c (.LetStatement nm v) = .ok c ∧
      compileExpr c (.Identifier nm) = .ok c ∧
      compileExpr c (.ArrayLiteral elems) = .ok c ∧
      compileExpr c (.FunctionLiteral params blk) = .ok c ∧
      compileExpr c (.CallExpression fn args) = .ok c ∧
      compileStmt c (.ReturnStatement v) = .ok c ∧
      compileStmt c (.BlockStatement stmts) = .ok c :=
  ⟨rfl, rfl, rfl, rfl, rfl, rfl, rfl, rfl, rfl, rfl, rfl⟩

/-! ## Virtual machine (vm/vm.go)

The fixed-size Go arrays `stack` (2048) and `globals` (65536) are modelled as
index functions; every Go bounds check that can fail is replicated as an
explicit guard at its access site, yielding a `panicked` outcome where the Go
runtime would panic.  Slots hold `Option Obj`: `none` is a nil interface
value (Go `make([]object.Object, n)` fills with nils). -/

/-- StackSize from vm.go. -/
def StackSize : Nat := 2048

/-- GlobalSize from vm.go. -/
def GlobalSize : Nat := 65536

/-- VM state: stack, stack pointer (next free slot), globals. -/
structure VM where
  stack : Nat → Option Obj
  sp : Nat
  globals : Nat → Option Obj

/-- New: zeroed stack and globals, sp = 0. -/
def NewVM : VM := ⟨fun _ => none, 0, fun _ => none⟩

/-- Go runtime panic messages used by the embedding. -/
def indexOutOfRange : String := "runtime error: index out of range"

def divideByZero : String := "runtime error: integer divide by zero"

def nilDeref : String := "runtime error: invalid memory address or nil pointer dereference"

def interfaceConversion : String := "interface conversion"

/-- Result of one helper/instruction: continue with the new state, stop the
run with the Go error return, or a Go runtime panic. -/
inductive StepR where
  | ok (vm : VM)
  | err (msg : String)
  | panicked (msg : String)

/-- The state produced by a successful push: write the slot at sp and
increment sp. -/
def writeTop (vm : VM) (o : Option Obj) : VM :=
  { vm with stack := fun k => if k = vm.sp then o else vm.stack k, sp := vm.sp + 1 }

/-- push: error when sp has reached StackSize, else write at sp and
increment. -/
def push (vm : VM) (o : Option Obj) : StepR :=
  if StackSize ≤ vm.sp then .err "stack overflow"
  else .ok (writeTop vm o)

/-- pop: read stack[sp-1] and decrement sp without clearing the slot.
`none` marks the Go panic of indexing stack[-1] when sp = 0. -/
def pop (vm : VM) : Option (Option Obj × VM) :=
  if vm.sp = 0 then none
  else some (vm.stack (vm.sp - 1), { vm with sp := vm.sp - 1 })

/-- LastPoppedStackElem: the slot just above sp.  (Go would panic if sp were
ever StackSize here; after a completed run of compiled code sp is 0.) -/
def LastPoppedStackElem (vm : VM) : Option Obj := vm.stack vm.sp

/-- isTruthy: False and Null are falsy, everything else (including a nil
interface value, which hits the type switch default) is truthy. -/
def isTruthy : Option Obj → Bool
  | some (.boolean b) => b
  | some .null => false
  | _ => true

/-- Go interface identity, as used by the comparison fall-through.  The
canonical True/False/Null singletons are the only shared instances the
compiled code paths produce, so identity coincides with tag equality on
booleans and null and is false for separately allocated aggregates.  (The
one unmodelled corner: two references to the very same constants-pool entry
would be identical in Go.) -/
def singletonEq : Obj → Obj → Bool
  | .boolean a, .boolean b => a == b
  | .null, .null => true
  | _, _ => false

/-- executeIntegerBinaryOperation: two's-complement 64-bit arithmetic.  The
division case performs Go's `/` on int64: truncated toward zero, panicking
on a zero divisor (the source has no guard), wrapping MinInt64 / -1. -/
def executeIntegerBinaryOperation (vm : VM) (op : Nat) (left right : Obj) : StepR :=
  match left, right with
  | .integer leftVal, .integer rightVal =>
    if op = 1 then push vm (some (.integer (wrap64 (leftVal + rightVal))))
    else if op = 3 then push vm (some (.integer (wrap64 (leftVal - rightVal))))
    else if op = 4 then push vm (some (.integer (wrap64 (leftVal * rightVal))))
    else if op = 5 then
      (if rightVal = 0 then .panicked divideByZero
       else push vm (some (.integer (wrap64 (leftVal.tdiv rightVal)))))
    else .err ("unknown integer operator: " ++ toString op)
  | _, _ => .panicked interfaceConversion

/-- executeStringBinaryOperation: only OpAdd (concatenation) is defined. -/
def executeStringBinaryOperation (vm : VM) (op : Nat) (left right : Obj) : StepR :=
  if op ≠ 1 then .err ("unknown string operator: " ++ toString op)
  else
    match left, right with
    | .str l, .str r => push vm (some (.str (l ++ r)))
    | _, _ => .panicked interfaceConversion

/-- executeBinaryOperation: pop right then left; dispatch on the type tags
(Integer/Integer, String/String, else an unsupported-types error).  Popping
an empty stack panics; a nil operand panics at the Type() call. -/
def executeBinaryOperation (vm : VM) (op : Nat) : StepR :=
  match pop vm with
  | none => .panicked indexOutOfRange
  | some (right, vm1) =>
    match pop vm1 with
    | none => .panicked indexOutOfRange
    | some (left, vm2) =>
      match left, right with
      | some (.integer l), some (.integer r) =>
        executeIntegerBinaryOperation vm2 op (.integer l) (.integer r)
      | some (.str l), some (.str r) =>
        executeStringBinaryOperation vm2 op (.str l) (.str r)
      | some l, some r =>
        .err ("unsupported types for binary operator: " ++ typeOf l ++ " " ++ typeOf r)
      | _, _ => .panicked nilDeref

/-- executeIntegerComparison: value comparison of two Integers. -/
def executeIntegerComparison (vm : VM) (op : Nat) (left right : Obj) : StepR :=
  match left, right with
  | .integer leftVal, .integer rightVal =>
    match op with
    | 8 => push vm (some (.boolean (decide (rightVal = leftVal))))
    | 9 => push vm (some (.boolean (!decide (rightVal = leftVal))))
    | 10 => push vm (some (.boolean (decide (rightVal < leftVal))))
    | _ => .err ("unknown operator: " ++ toString op)
  | _, _ => .panicked interfaceConversion

/-- executeComparison: pop right then left; Integer pairs compare by value,
anything else falls through to identity equality for OpEqual/OpNotEqual and
an unknown-operator error otherwise. -/
def executeComparison (vm : VM) (op : Nat) : StepR :=
  match pop vm with
  | none => .panicked indexOutOfRange
  | some (right, vm1) =>
    match pop vm1 with
    | none => .panicked indexOutOfRange
    | some (left, vm2) =>
      match left, right with
      | some (.integer l), some (.integer r) =>
        executeIntegerComparison vm2 op (.integer l) (.integer r)
      | some l, some r =>
        match op with
        | 8 => push vm2 (some (.boolean (singletonEq r l)))
        | 9 => push vm2 (some (.boolean (!singletonEq r l)))
        | _ =>
          .err ("unknown operator: " ++ toString op ++ " (" ++ typeOf l ++ " " ++ typeOf r ++ ")")
      | _, _ => .panicked nilDeref

/-- executeBangOperator: switch on the singletons False/True/Null; everything
else (nil included) hits the default and pushes False. -/
def executeBangOperator (vm : VM) : StepR :=
  match pop vm with
  | none => .panicked indexOutOfRange
  | some (operand, vm1) =>
    match operand with
    | some (.boolean false) => push vm1 (some (.boolean true))
    | some (.boolean true) => push vm1 (some (.boolean false))
    | some .null => push vm1 (some (.boolean true))
    | _ => push vm1 (some (.boolean false))

/-- executeMinusOperator: Integer-only negation (wrapping at MinInt64). -/
def executeMinusOperator (vm : VM) : StepR :=
  match pop vm with
  | none => .panicked indexOutOfRange
  | some (operand, vm1) =>
    match operand with
    | some (.integer v) => push vm1 (some (.integer (wrap64 (-v))))
    | some o => .err ("unsupported type for negation: " ++ typeOf o)
    | none => .panicked nilDeref

/-- Unsigned 64-bit reinterpretation of an int64 (HashKey for Integer). -/
def u64OfInt (v : Int) : Nat := (v % 2 ^ 64).toNat

/-- FNV-1a 64-bit over the UTF-8 bytes of a string (HashKey for String). -/
def fnv64a (s : String) : Nat :=
  s.toUTF8.toList.foldl (fun h b => (h ^^^ b.toNat) * 1099511628211 % 2 ^ 64)
    14695981039346656037

/-- HashKey: defined for the Hashable objects (Integer, Boolean, String). -/
def hashKeyOf : Obj → Option HashKey
  | .integer v => some ⟨"INTEGER", u64OfInt v⟩
  | .boolean b => some ⟨"BOOLEAN", if b then 1 else 0⟩
  | .str s => some ⟨"STRING", fnv64a s⟩
  | _ => none

/-- Insert-or-replace into the association list modelling the Go pairs map. -/
def upsertPair (pairs : List (HashKey × Option Obj × Option Obj)) (k : HashKey)
    (v : Option Obj × Option Obj) : List (HashKey × Option Obj × Option Obj) :=
  if pairs.any (fun p => p.1 == k) then
    pairs.map (fun p => if p.1 == k then (k, v) else p)
  else pairs ++ [(k, v)]

/-- Result of buildHash: the pairs, an error, or a panic. -/
inductive HashRes where
  | ok (pairs : List (HashKey × Option Obj × Option Obj))
  | err (msg : String)
  | panicked (msg : String)

/-- buildHash loop: consume stack slots two at a time as key/value; a
non-hashable key is an error (and a nil key panics when Go formats
key.Type() for that error). -/
def buildHashLoop (stk : Nat → Option Obj) (i stop : Nat)
    (acc : List (HashKey × Option Obj × Option Obj)) : HashRes :=
  if i < stop then
    match stk i with
    | none => .panicked nilDeref
    | some k =>
      match hashKeyOf k with
      | none => .err ("unusable as hash key: " ++ typeOf k)
      | some hk => buildHashLoop stk (i + 2) stop (upsertPair acc hk (some k, stk (i + 1)))
  else .ok acc
termination_by stop - i
decreasing_by omega

/-- executeArrayIndex: out-of-bounds pushes Null, else push the element. -/
def executeArrayIndex (vm : VM) (elements : List (Option Obj)) (i : Int) : StepR :=
  let maxBounds : Int := (elements.length : Int) - 1
  if i < 0 ∨ maxBounds < i then push vm (some .null)
  else push vm (elements.getD i.toNat none)

/-- executeHashIndex: non-hashable index errors; a miss pushes Null. -/
def executeHashIndex (vm : VM) (pairs : List (HashKey × Option Obj × Option Obj))
    (index : Obj) : StepR :=
  match hashKeyOf index with
  | none => .err ("unusable as hash key: " ++ typeOf index)
  | some hk =>
    match pairs.find? (fun p => p.1 == hk) with
    | none => push vm (some .null)
    | some p => push vm p.2.2

/-- executeIndexExpression: Array+Integer and Hash are supported; other
combinations error, and nil operands panic at the Type() calls. -/
def executeIndexExpression (vm : VM) (left index : Option Obj) : StepR :=
  match left, index with
  | some (.array elements), some (.integer i) => executeArrayIndex vm elements i
  | some (.hash pairs), some idx => executeHashIndex vm pairs idx
  | some l, some _ => .err ("index operator not supported: " ++ typeOf l)
  | _, _ => .panicked nilDeref

/-- Outcome of a whole run: normal return, Go error return, Go runtime
panic, or fuel exhaustion of the embedding. -/
inductive Outcome where
  | ok (vm : VM)
  | err (msg : String)
  | panicked (msg : String)
  | outOfFuel

/-- The Run fetch/decode/dispatch loop.  `fuel` bounds the number of loop
iterations to make the embedding total (Go's loop has no bound and can
diverge on backward jumps); every compiled stream considered below is
jump-free, so `length + 1` fuel always suffices for it.  The `none` branch of
`ins[ip]?` is the loop exit `ip >= len(instructions)`.  Unknown opcode bytes
hit no switch case, so the loop silently advances by one byte. -/
def runLoop (consts : List Obj) (ins : List Nat) : Nat → Nat → VM → Outcome
  | 0, _, _ => .outOfFuel
  | fuel + 1, ip, vm =>
    match ins[ip]? with
    | none => .ok vm
    | some op =>
      match op with
      | 0 =>
        match ins[ip + 1]?, ins[ip + 2]? with
        | some hi, some lo =>
          match consts[hi * 256 + lo]? with
          | none => .panicked indexOutOfRange
          | some c =>
            match push vm (some c) with
            | .ok vm' => runLoop consts ins fuel (ip + 3) vm'
            | .err m => .err m
            | .panicked m => .panicked m
        | _, _ => .panicked indexOutOfRange
      | 1 | 3 | 4 | 5 =>
        match executeBinaryOperation vm op with
        | .ok vm' => runLoop consts ins fuel (ip + 1) vm'
        | .err m => .err m
        | .panicked m => .panicked m
      | 2 =>
        match pop vm with
        | none => .panicked indexOutOfRange
        | some (_, vm') => runLoop consts ins fuel (ip + 1) vm'
      | 6 =>
        match push vm (some (.boolean true)) with
        | .ok vm' => runLoop consts ins fuel (ip + 1) vm'
        | .err m => .err m
        | .panicked m => .panicked m
      | 7 =>
        match push vm (some (.boolean false)) with
        | .ok vm' => runLoop consts ins fuel (ip + 1) vm'
        | .err m => .err m
        | .panicked m => .panicked m
      | 8 | 9 | 10 =>
        match executeComparison vm op with
        | .ok vm' => runLoop consts ins fuel (ip + 1) vm'
        | .err m => .err m
        | .panicked m => .panicked m
      | 12 =>
        match executeBangOperator vm with
        | .ok vm' => runLoop consts ins fuel (ip + 1) vm'
        | .err m => .err m
        | .panicked m => .panicked m
      | 11 =>
        match executeMinusOperator vm with
        | .ok vm' => runLoop consts ins fuel (ip + 1) vm'
        | .err m => .err m
        | .panicked m => .panicked m
      | 14 =>
        match ins[ip + 1]?, ins[ip + 2]? with
        | some hi, some lo => runLoop consts ins fuel (hi * 256 + lo) vm
        | _, _ => .panicked indexOutOfRange
      | 13 =>
        match ins[ip + 1]?, ins[ip + 2]? with
        | some hi, some lo =>
          match pop vm with
          | none => .panicked indexOutOfRange
          | some (condition, vm') =>
            if !isTruthy condition then runLoop consts ins fuel (hi * 256 + lo) vm'
            else runLoop consts ins fuel (ip + 3) vm'
        | _, _ => .panicked indexOutOfRange
      | 15 =>
        match push vm (some .null) with
        | .ok vm' => runLoop consts ins fuel (ip + 1) vm'
        | .err m => .err m
        | .panicked m => .panicked m
      | 17 =>
        match ins[ip + 1]?, ins[ip + 2]? with
        | some hi, some lo =>
          match pop vm with
          | none => .panicked indexOutOfRange
          | some (v, vm') =>
            runLoop consts ins fuel (ip + 3)
              { vm' with globals := fun k => if k = hi * 256 + lo then v else vm'.globals k }
        | _, _ => .panicked indexOutOfRange
      | 16 =>
        match ins[ip + 1]?, ins[ip + 2]? with
        | some hi, some lo =>
          match push vm (vm.globals (hi * 256 + lo)) with
          | .ok vm' => runLoop consts ins fuel (ip + 3) vm'
          | .err m => .err m
          | .panicked m => .panicked m
        | _, _ => .panicked indexOutOfRange
      | 18 =>
        match ins[ip + 1]?, ins[ip + 2]? with
        | some hi, some lo =>
          let num := hi * 256 + lo
          if vm.sp < num then .panicked indexOutOfRange
          else
            let elements := (List.range num).map (fun j => vm.stack (vm.sp - num + j))
            match push { vm with sp := vm.sp - num } (some (.array elements)) with
            | .ok vm' => runLoop consts ins fuel (ip + 3) vm'
            | .err m => .err m
            | .panicked m => .panicked m
        | _, _ => .panicked indexOutOfRange
      | 19 =>
        match ins[ip + 1]?, ins[ip + 2]? with
        | some hi, some lo =>
          let num := hi * 256 + lo
          if vm.sp < num then .panicked indexOutOfRange
          else
            match buildHashLoop vm.stack (vm.sp - num) vm.sp [] with
            | .err m => .err m
            | .panicked m => .panicked m
            | .ok pairs =>
              match push { vm with sp := vm.sp - num } (some (.hash pairs)) with
              | .ok vm' => runLoop consts ins fuel (ip + 3) vm'
              | .err m => .err m
              | .panicked m => .panicked m
        | _, _ => .panicked indexOutOfRange
      | 20 =>
        match pop vm with
        | none => .panicked indexOutOfRange
        | some (index, vm1) =>
          match pop vm1 with
          | none => .panicked indexOutOfRange
          | some (left, vm2) =>
            match executeIndexExpression vm2 left index with
            | .ok vm' => runLoop consts ins fuel (ip + 1) vm'
            | .err m => .err m
            | .panicked m => .panicked m
      | _ => runLoop consts ins fuel (ip + 1) vm

/-- Run a compiled Bytecode artifact from a fresh VM, with enough fuel for
any jump-free instruction stream. -/
def RunVM (c : Compiler) : Outcome :=
  runLoop c.constants c.instructions (c.instructions.length + 1) 0 NewVM

/-! ## VM theorems on concrete runs -/

/-- C1: OpDiv with a zero right operand hits Go's unguarded integer division,
which panics (a crash), instead of returning a runtime error from Run.  The
conjuncts evaluate the helper at any Integer left operand, and compile and
run the program `1 / 0` end to end. -/
theorem opDiv_by_zero_panics (vm : VM) (l : Int) :
    executeIntegerBinaryOperation vm 5 (.integer l) (.integer 0) =
        .panicked divideByZero ∧
      compileProgram
          [.ExpressionStatement
            (.InfixExpression (.IntegerLiteral 1) "/" (.IntegerLiteral 0))] =
        .ok ⟨[0, 0, 0, 0, 0, 1, 5, 2], [.integer 1, .integer 0]⟩ ∧
      RunVM ⟨[0, 0, 0, 0, 0, 1, 5, 2], [.integer 1, .integer 0]⟩ =
        .panicked divideByZero := by
  refine ⟨?_, rfl, rfl⟩
  simp [executeIntegerBinaryOperation, divideByZero]

/-- C4 counterexample: the sole statement `if (false) { 10 }` compiles
without error to a bare OpPop (no OpJumpNotTruthy, no OpNull, no constants),
and running that bytecode panics on stack underflow — Null is never left on
the stack. -/
theorem if_without_else_not_null :
    compileProgram
        [.ExpressionStatement
          (.IfExpression (.Boolean false)
            (.BlockStatement [.ExpressionStatement (.IntegerLiteral 10)]) none)] =
      .ok ⟨[2], []⟩ ∧
      RunVM ⟨[2], []⟩ = .panicked indexOutOfRange :=
  ⟨rfl, rfl⟩

/-- C4 amended: the compiler has no case for if-expressions and emits nothing
for them; as an expression statement an if-expression therefore compiles to a
lone OpPop whose execution underflows the stack and panics, rather than
leaving Null on the stack. -/
theorem if_expression_not_compiled (c : Compiler) (cond : Expr) (cons : Stmt)
    (alt : Option Stmt) :
    compileExpr c (.IfExpression cond cons alt) = .ok c ∧
      compileStmt c (.ExpressionStatement (.IfExpression cond cons alt)) =
        .ok (emit c opPop []) ∧
      RunVM ⟨[2], []⟩ = .panicked indexOutOfRange :=
  ⟨rfl, rfl, rfl⟩

/-- C6 counterexample: byte 200 has no opcode definition, yet Run completes
without error on the stream [200]: the loop silently skips the byte. -/
theorem run_unknown_opcode_no_error :
    Lookup 200 = none ∧ RunVM ⟨[200], []⟩ = .ok NewVM :=
  ⟨rfl, rfl⟩

/-- C6 amended: code.Lookup reports "opcode N undefined" for a byte with no
definition (the disassembler's error path), but the VM Run loop has no
default case: it silently skips such a byte and completes without error. -/
theorem lookup_fails_run_skips (b : Nat) (h : Lookup b = none) :
    LookupE b = .error ("opcode " ++ toString b ++ " undefined") ∧
      RunVM ⟨[b], []⟩ = .ok NewVM := by
  have hb : 21 ≤ b := by
    by_contra hlt
    push_neg at hlt
    interval_cases b <;> simp_all [Lookup, definitions]
  obtain ⟨k, rfl⟩ : ∃ k, b = k + 21 := ⟨b - 21, by omega⟩
  exact ⟨by simp [LookupE, h], rfl⟩

/-- Witness for C6 at byte 200. -/
theorem lookup_fails_run_skips_witness :
    LookupE 200 = .error ("opcode " ++ toString 200 ++ " undefined") ∧
      RunVM ⟨[200], []⟩ = .ok NewVM :=
  lookup_fails_run_skips 200 rfl

/-- C9 counterexample: the program `true;` compiles without error (the
Boolean has no compiler case) to the single byte OpPop, and running that
compiler-produced bytecode executes pop with sp = 0: the claimed
no-underflow property fails, with a Go index-out-of-range panic. -/
theorem compiled_pop_underflow :
    compileProgram [.ExpressionStatement (.Boolean true)] = .ok ⟨[2], []⟩ ∧
      RunVM ⟨[2], []⟩ = .panicked indexOutOfRange :=
  ⟨rfl, rfl⟩

/-! ## Reference semantics of the compiled fragment -/

/-- The expressions the compiler actually lowers: integer literals and
arithmetic infix expressions. -/
def supported : Expr → Bool
  | .IntegerLiteral _ => true
  | .InfixExpression l op r =>
    (op == "+" || op == "-" || op == "*" || op == "/") && supported l && supported r
  | _ => false

/-- Reference evaluation to an int64 value, defined exactly where compiled
execution can succeed: unsupported nodes and division by zero give none. -/
def evalExpr : Expr → Option Int
  | .IntegerLiteral n => some n
  | .InfixExpression l op r =>
    match evalExpr l, evalExpr r with
    | some vl, some vr =>
      if op = "+" then some (wrap64 (vl + vr))
      else if op = "-" then some (wrap64 (vl - vr))
      else if op = "*" then some (wrap64 (vl * vr))
      else if op = "/" then (if vr = 0 then none else some (wrap64 (vl.tdiv vr)))
      else none
    | _, _ => none
  | _ => none

/-- The expression of the last ExpressionStatement of a statement list. -/
def lastExprStmt : List Stmt → Option Expr
  | [] => none
  | s :: rest =>
    match lastExprStmt rest with
    | some e => some e
    | none =>
      match s with
      | .ExpressionStatement e => some e
      | _ => none

/-- All expression statements of the program lie in the supported fragment. -/
def allSupported (ss : List Stmt) : Bool :=
  ss.all fun s =>
    match s with
    | .ExpressionStatement e => supported e
    | _ => true

/-- Static net stack effect of the code compiled for an expression. -/
def netE : Expr → Int
  | .IntegerLiteral _ => 1
  | .InfixExpression l _ r => netE l + netE r - 1
  | _ => 0

/-! ## Compiled-code segments inside an instruction stream -/

/-- The byte list `seg` occurs in `ins` starting at offset `base`. -/
def SegAt (ins : List Nat) (base : Nat) (seg : List Nat) : Prop :=
  ∀ k, k < seg.length → ins[base + k]? = seg[k]?

theorem segAt_refl (l : List Nat) : SegAt l 0 l := by
  intro k hk
  simp

theorem segAt_left {ins : List Nat} {base : Nat} {a b : List Nat}
    (h : SegAt ins base (a ++ b)) : SegAt ins base a := by
  intro k hk
  have h2 := h k (by simp; omega)
  rwa [List.getElem?_append, if_pos hk] at h2

theorem segAt_right {ins : List Nat} {base : Nat} {a b : List Nat}
    (h : SegAt ins base (a ++ b)) : SegAt ins (base + a.length) b := by
  intro k hk
  have h2 := h (a.length + k) (by simp; omega)
  rw [List.getElem?_append, if_neg (by omega)] at h2
  rw [← Nat.add_assoc] at h2
  simpa using h2

theorem segAt_byte {ins : List Nat} {base : Nat} {seg : List Nat}
    (h : SegAt ins base seg) (k x : Nat) (hx : seg[k]? = some x) :
    ins[base + k]? = some x := by
  have hk : k < seg.length := by
    by_contra hk
    rw [List.getElem?_eq_none (by omega)] at hx
    exact Option.noConfusion hx
  rw [h k hk, hx]

/-! ## Compiler shape lemmas -/

theorem emit_opAdd (c : Compiler) :
    emit c opAdd [] = ⟨c.instructions ++ [1], c.constants⟩ := rfl

theorem emit_opSub (c : Compiler) :
    emit c opSub [] = ⟨c.instructions ++ [3], c.constants⟩ := rfl

theorem emit_opMul (c : Compiler) :
    emit c opMul [] = ⟨c.instructions ++ [4], c.constants⟩ := rfl

theorem emit_opDiv (c : Compiler) :
    emit c opDiv [] = ⟨c.instructions ++ [5], c.constants⟩ := rfl

theorem emit_opPop (c : Compiler) :
    emit c opPop [] = ⟨c.instructions ++ [2], c.constants⟩ := rfl

theorem emit_opConstant (c : Compiler) (i : Nat) :
    emit c opConstant [i] =
      ⟨c.instructions ++ [0, i / 256 % 256, i % 256], c.constants⟩ := rfl

/-- Reduction of bind on a failed Except computation. -/
theorem error_bind {α β ε : Type} (e : ε) (f : α → Except ε β) :
    (Except.error e >>= f) = Except.error e := rfl

/-- Inversion of compiling an infix expression: the left operand is compiled
first, the right operand in the state the left one produced, and the operator
must be one of + - * /. -/
theorem compileExpr_infix_inv {c c' : Compiler} {l r : Expr} {op : String}
    (h : compileExpr c (.InfixExpression l op r) = .ok c') :
    ∃ c1 c2, compileExpr c l = .ok c1 ∧ compileExpr c1 r = .ok c2 ∧
      ((op = "+" ∧ c' = emit c2 opAdd []) ∨ (op = "-" ∧ c' = emit c2 opSub []) ∨
        (op = "*" ∧ c' = emit c2 opMul []) ∨ (op = "/" ∧ c' = emit c2 opDiv [])) := by
  rw [compileExpr] at h
  cases h1 : compileExpr c l with
  | error m => rw [h1, error_bind] at h; exact Except.noConfusion h
  | ok c1 =>
    rw [h1, ok_bind] at h
    cases h2 : compileExpr c1 r with
    | error m => rw [h2, error_bind] at h; exact Except.noConfusion h
    | ok c2 =>
      rw [h2, ok_bind] at h
      refine ⟨c1, c2, rfl, h2, ?_⟩
      by_cases hp : op = "+"
      · subst hp; simp at h; exact Or.inl ⟨rfl, h.symm⟩
      by_cases hs : op = "-"
      · subst hs; simp at h; exact Or.inr (Or.inl ⟨rfl, h.symm⟩)
      by_cases hm : op = "*"
      · subst hm; simp at h; exact Or.inr (Or.inr (Or.inl ⟨rfl, h.symm⟩))
      by_cases hd : op = "/"
      · subst hd; simp at h; exact Or.inr (Or.inr (Or.inr ⟨rfl, h.symm⟩))
      · rw [if_neg hp, if_neg hs, if_neg hm, if_neg hd] at h
        exact Except.noConfusion h

/-- Compiling an expression only appends to the instruction stream and the
constants pool. -/
theorem compileExpr_mono :
    ∀ (e : Expr) (c c' : Compiler), compileExpr c e = .ok c' →
      ∃ di dc, c'.instructions = c.instructions ++ di ∧
        c'.constants = c.constants ++ dc
  | .InfixExpression l op r, c, c', h => by
    obtain ⟨c1, c2, h1, h2, hcase⟩ := compileExpr_infix_inv h
    obtain ⟨di1, dc1, e1, f1⟩ := compileExpr_mono l c c1 h1
    obtain ⟨di2, dc2, e2, f2⟩ := compileExpr_mono r c1 c2 h2
    have hb : ∃ b, c' = ⟨c2.instructions ++ [b], c2.constants⟩ := by
      rcases hcase with ⟨_, hc⟩ | ⟨_, hc⟩ | ⟨_, hc⟩ | ⟨_, hc⟩ <;>
        rw [hc] <;> exact ⟨_, rfl⟩
    obtain ⟨b, rfl⟩ := hb
    refine ⟨di1 ++ di2 ++ [b], dc1 ++ dc2, ?_, ?_⟩ <;> simp [e1, f1, e2, f2]
  | .IntegerLiteral n, c, c', h => by
    rw [compileExpr] at h
    have h' := (Except.ok.injEq _ _).mp h
    refine ⟨[0, c.constants.length / 256 % 256, c.constants.length % 256],
      [.integer n], ?_, ?_⟩ <;> rw [← h'] <;> rfl
  | .Identifier v, c, c', h => by
    have h' := (Except.ok.injEq c c').mp h
    exact ⟨[], [], by simp [← h']⟩
  | .PrefixExpression o e, c, c', h => by
    have h' := (Except.ok.injEq c c').mp h
    exact ⟨[], [], by simp [← h']⟩
  | .Boolean b, c, c', h => by
    have h' := (Except.ok.injEq c c').mp h
    exact ⟨[], [], by simp [← h']⟩
  | .IfExpression a b d, c, c', h => by
    have h' := (Except.ok.injEq c c').mp h
    exact ⟨[], [], by simp [← h']⟩
  | .StringLiteral s, c, c', h => by
    have h' := (Except.ok.injEq c c').mp h
    exact ⟨[], [], by simp [← h']⟩
  | .FunctionLiteral ps b, c, c', h => by
    have h' := (Except.ok.injEq c c').mp h
    exact ⟨[], [], by simp [← h']⟩
  | .CallExpression f a, c, c', h => by
    have h' := (Except.ok.injEq c c').mp h
    exact ⟨[], [], by simp [← h']⟩
  | .ArrayLiteral es, c, c', h => by
    have h' := (Except.ok.injEq c c').mp h
    exact ⟨[], [], by simp [← h']⟩

/-- Net-effect bounds: a compilable supported expression nets exactly one
value; a compilable unsupported one nets at most zero. -/
theorem netE_bounds :
    ∀ (e : Expr) (c c' : Compiler), compileExpr c e = .ok c' →
      (supported e = true → netE e = 1) ∧ (supported e = false → netE e ≤ 0)
  | .InfixExpression l op r, c, c', h => by
    obtain ⟨c1, c2, h1, h2, hcase⟩ := compileExpr_infix_inv h
    have ihl := netE_bounds l c c1 h1
    have ihr := netE_bounds r c1 c2 h2
    have hop : (op == "+" || op == "-" || op == "*" || op == "/") = true := by
      rcases hcase with ⟨rfl, _⟩ | ⟨rfl, _⟩ | ⟨rfl, _⟩ | ⟨rfl, _⟩ <;> rfl
    have hl1 : netE l ≤ 1 := by
      cases hsl : supported l with
      | true => exact le_of_eq (ihl.1 hsl)
      | false => exact le_trans (ihl.2 hsl) (by omega)
    have hr1 : netE r ≤ 1 := by
      cases hsr : supported r with
      | true => exact le_of_eq (ihr.1 hsr)
      | false => exact le_trans (ihr.2 hsr) (by omega)
    constructor
    · intro hs
      rw [supported, hop] at hs
      simp only [Bool.true_and, Bool.and_eq_true] at hs
      rw [netE, ihl.1 hs.1, ihr.1 hs.2]
      omega
    · intro hs
      rw [supported, hop] at hs
      simp only [Bool.true_and] at hs
      rw [netE]
      cases hsl : supported l with
      | false => have := ihl.2 hsl; omega
      | true =>
        rw [hsl, Bool.true_and] at hs
        have := ihr.2 hs
        omega
  | .IntegerLiteral n, _, _, _ => ⟨fun _ => rfl, fun h => by simp [supported] at h⟩
  | .Identifier v, _, _, _ => ⟨fun h => by simp [supported] at h, fun _ => le_refl 0⟩
  | .PrefixExpression o e, _, _, _ =>
    ⟨fun h => by simp [supported] at h, fun _ => le_refl 0⟩
  | .Boolean b, _, _, _ => ⟨fun h => by simp [supported] at h, fun _ => le_refl 0⟩
  | .IfExpression a b d, _, _, _ =>
    ⟨fun h => by simp [supported] at h, fun _ => le_refl 0⟩
  | .StringLiteral s, _, _, _ =>
    ⟨fun h => by simp [supported] at h, fun _ => le_refl 0⟩
  | .FunctionLiteral ps b, _, _, _ =>
    ⟨fun h => by simp [supported] at h, fun _ => le_refl 0⟩
  | .CallExpression f a, _, _, _ =>
    ⟨fun h => by simp [supported] at h, fun _ => le_refl 0⟩
  | .ArrayLiteral es, _, _, _ =>
    ⟨fun h => by simp [supported] at h, fun _ => le_refl 0⟩

/-! ## Single-instruction step lemmas over compiled code -/

/-- The int64 value computed by the arithmetic opcode b on operands vl, vr. -/
def arithValue (b : Nat) (vl vr : Int) : Int :=
  if b = 1 then wrap64 (vl + vr)
  else if b = 3 then wrap64 (vl - vr)
  else if b = 4 then wrap64 (vl * vr)
  else wrap64 (vl.tdiv vr)

theorem runLoop_exit (P : List Obj) (ins : List Nat) (fuel ip : Nat) (vm : VM)
    (h : ins[ip]? = none) (hf : 1 ≤ fuel) :
    runLoop P ins fuel ip vm = .ok vm := by
  obtain ⟨m, rfl⟩ : ∃ m, fuel = m + 1 := ⟨fuel - 1, by omega⟩
  rw [runLoop, h]

/-- Shape of push: overflow error at full stack, else the written state. -/
theorem push_shape (vm : VM) (o : Option Obj) :
    StackSize ≤ vm.sp ∧ push vm o = .err "stack overflow" ∨
      vm.sp < StackSize ∧ push vm o = .ok (writeTop vm o) := by
  by_cases h : StackSize ≤ vm.sp
  · exact Or.inl ⟨h, by simp [push, h]⟩
  · exact Or.inr ⟨by omega, by simp [push, h]⟩

theorem writeTop_sp (vm : VM) (o : Option Obj) : (writeTop vm o).sp = vm.sp + 1 := rfl

theorem writeTop_stack_self (vm : VM) (o : Option Obj) :
    (writeTop vm o).stack vm.sp = o := by
  simp [writeTop]

theorem writeTop_stack_ne (vm : VM) (o : Option Obj) (k : Nat) (hk : k ≠ vm.sp) :
    (writeTop vm o).stack k = vm.stack k := by
  simp [writeTop, hk]

/-- The arithmetic helper on two Integers with a defined (non-panicking)
operation pushes the wrapped result. -/
theorem execIntBin_value (vm : VM) (b : Nat) (vl vr : Int)
    (h : b = 1 ∨ b = 3 ∨ b = 4 ∨ (b = 5 ∧ vr ≠ 0)) :
    executeIntegerBinaryOperation vm b (.integer vl) (.integer vr) =
      push vm (some (.integer (arithValue b vl vr))) := by
  rcases h with rfl | rfl | rfl | ⟨rfl, hz⟩
  · simp [executeIntegerBinaryOperation, arithValue]
  · simp [executeIntegerBinaryOperation, arithValue]
  · simp [executeIntegerBinaryOperation, arithValue]
  · simp [executeIntegerBinaryOperation, arithValue, hz]

/-- Executing an OpConstant instruction whose decoded operand is idx mod
65536: either the push overflows, or execution continues past the
instruction with the constant on top of the stack. -/
theorem constStep (P : List Obj) (ins : List Nat) (ip fuel : Nat) (vm : VM)
    (idx : Nat) (o : Obj)
    (h0 : ins[ip]? = some 0)
    (h1 : ins[ip + 1]? = some (idx / 256 % 256))
    (h2 : ins[ip + 2]? = some (idx % 256))
    (hidx : P[idx % 65536]? = some o)
    (hf : 1 ≤ fuel) :
    StackSize ≤ vm.sp ∧ runLoop P ins fuel ip vm = .err "stack overflow" ∨
      ∃ vm', vm.sp < StackSize ∧
        runLoop P ins fuel ip vm = runLoop P ins (fuel - 1) (ip + 3) vm' ∧
        vm'.sp = vm.sp + 1 ∧ vm'.stack vm.sp = some o ∧
        (∀ k, k ≠ vm.sp → vm'.stack k = vm.stack k) := by
  obtain ⟨m, rfl⟩ : ∃ m, fuel = m + 1 := ⟨fuel - 1, by omega⟩
  have hdec : idx / 256 % 256 * 256 + idx % 256 = idx % 65536 := by omega
  rw [runLoop]
  simp only [h0, h1, h2, hdec, hidx]
  rcases push_shape vm (some o) with ⟨hsp, hpush⟩ | ⟨hsp, hpush⟩
  · left
    rw [hpush]
    exact ⟨hsp, rfl⟩
  · right
    rw [hpush]
    exact ⟨writeTop vm (some o), hsp, rfl, writeTop_sp vm (some o),
      writeTop_stack_self vm (some o), fun k hk => writeTop_stack_ne vm (some o) k hk⟩

/-- Executing one arithmetic opcode b ∈ {OpAdd, OpSub, OpMul, OpDiv} with two
Integers on top of the stack: overflow error, division-by-zero panic, or
continuation with the wrapped result in place of the operands. -/
theorem arithStep (P : List Obj) (ins : List Nat) (ip fuel : Nat) (vm : VM)
    (n : Nat) (vl vr : Int) (b : Nat)
    (hb : b = 1 ∨ b = 3 ∨ b = 4 ∨ b = 5)
    (hbyte : ins[ip]? = some b)
    (hsp : vm.sp = n + 2)
    (hvr : vm.stack (n + 1) = some (.integer vr))
    (hvl : vm.stack n = some (.integer vl))
    (hf : 1 ≤ fuel) :
    runLoop P ins fuel ip vm = .err "stack overflow" ∨
      runLoop P ins fuel ip vm = .panicked divideByZero ∧ b = 5 ∧ vr = 0 ∨
      ∃ vm', (b = 5 → vr ≠ 0) ∧
        runLoop P ins fuel ip vm = runLoop P ins (fuel - 1) (ip + 1) vm' ∧
        vm'.sp = n + 1 ∧ vm'.stack n = some (.integer (arithValue b vl vr)) ∧
        (∀ k, k ≠ n → vm'.stack k = vm.stack k) := by
  obtain ⟨m, rfl⟩ : ∃ m, fuel = m + 1 := ⟨fuel - 1, by omega⟩
  have hpop1 : pop vm = some (vm.stack (n + 1), { vm with sp := n + 1 }) := by
    simp [pop, hsp]
  have hpop2 : pop { vm with sp := n + 1 } =
      some (vm.stack n, { vm with sp := n }) := by
    simp [pop]
  have hexec : executeBinaryOperation vm b =
      executeIntegerBinaryOperation { vm with sp := n } b (.integer vl) (.integer vr) := by
    simp only [executeBinaryOperation, hpop1, hpop2, hvr, hvl]
  by_cases hdiv : b = 5 ∧ vr = 0
  · rcases hdiv with ⟨rfl, rfl⟩
    right; left
    have hpanic : executeBinaryOperation vm 5 = .panicked divideByZero := by
      rw [hexec]
      simp [executeIntegerBinaryOperation]
    rw [runLoop]
    simp [hbyte, hpanic]
  · have hval : executeBinaryOperation vm b =
        push { vm with sp := n } (some (.integer (arithValue b vl vr))) := by
      rw [hexec, execIntBin_value]
      rcases hb with rfl | rfl | rfl | rfl
      · exact Or.inl rfl
      · exact Or.inr (Or.inl rfl)
      · exact Or.inr (Or.inr (Or.inl rfl))
      · exact Or.inr (Or.inr (Or.inr ⟨rfl, fun hz => hdiv ⟨rfl, hz⟩⟩))
    rcases push_shape { vm with sp := n } (some (.integer (arithValue b vl vr))) with
      ⟨hov, hpush⟩ | ⟨hov, hpush⟩
    · left
      rcases hb with rfl | rfl | rfl | rfl <;>
      · rw [runLoop]
        simp only [hbyte, hval, hpush]
    · right; right
      refine ⟨writeTop { vm with sp := n } (some (.integer (arithValue b vl vr))),
        fun h5 hz => hdiv ⟨h5, hz⟩, ?_, rfl, ?_, ?_⟩
      · rcases hb with rfl | rfl | rfl | rfl <;>
        · rw [runLoop]
          simp only [hbyte, hval, hpush]
          rfl
      · exact writeTop_stack_self { vm with sp := n } _
      · intro k hk
        exact writeTop_stack_ne { vm with sp := n } _ k hk

/-- A run outcome that is a Go error return or a Go runtime panic. -/
def isFail (o : Outcome) : Prop :=
  (∃ m, o = .err m) ∨ (∃ m, o = .panicked m)

/-- Shape of the integer arithmetic helper for an arbitrary opcode byte. -/
theorem execIntBin_shape (vm : VM) (b : Nat) (x y : Int) :
    (∃ m, executeIntegerBinaryOperation vm b (.integer x) (.integer y) = .err m) ∨
      (∃ m, executeIntegerBinaryOperation vm b (.integer x) (.integer y) = .panicked m) ∨
      (∃ vm', executeIntegerBinaryOperation vm b (.integer x) (.integer y) = .ok vm' ∧
        vm'.sp = vm.sp + 1) := by
  rw [executeIntegerBinaryOperation]
  by_cases h1 : b = 1
  · rw [if_pos h1]
    rcases push_shape vm (some (.integer (wrap64 (x + y)))) with ⟨_, hp⟩ | ⟨_, hp⟩
    · exact Or.inl ⟨_, hp⟩
    · exact Or.inr (Or.inr ⟨_, hp, rfl⟩)
  rw [if_neg h1]
  by_cases h3 : b = 3
  · rw [if_pos h3]
    rcases push_shape vm (some (.integer (wrap64 (x - y)))) with ⟨_, hp⟩ | ⟨_, hp⟩
    · exact Or.inl ⟨_, hp⟩
    · exact Or.inr (Or.inr ⟨_, hp, rfl⟩)
  rw [if_neg h3]
  by_cases h4 : b = 4
  · rw [if_pos h4]
    rcases push_shape vm (some (.integer (wrap64 (x * y)))) with ⟨_, hp⟩ | ⟨_, hp⟩
    · exact Or.inl ⟨_, hp⟩
    · exact Or.inr (Or.inr ⟨_, hp, rfl⟩)
  rw [if_neg h4]
  by_cases h5 : b = 5
  · rw [if_pos h5]
    by_cases hz : y = 0
    · rw [if_pos hz]
      exact Or.inr (Or.inl ⟨_, rfl⟩)
    · rw [if_neg hz]
      rcases push_shape vm (some (.integer (wrap64 (x.tdiv y)))) with ⟨_, hp⟩ | ⟨_, hp⟩
      · exact Or.inl ⟨_, hp⟩
      · exact Or.inr (Or.inr ⟨_, hp, rfl⟩)
  rw [if_neg h5]
  exact Or.inl ⟨_, rfl⟩

/-- Shape of the string helper for an arbitrary opcode byte. -/
theorem execStrBin_shape (vm : VM) (b : Nat) (x y : String) :
    (∃ m, executeStringBinaryOperation vm b (.str x) (.str y) = .err m) ∨
      (∃ vm', executeStringBinaryOperation vm b (.str x) (.str y) = .ok vm' ∧
        vm'.sp = vm.sp + 1) := by
  rw [executeStringBinaryOperation]
  by_cases h1 : b ≠ 1
  · rw [if_pos h1]
    exact Or.inl ⟨_, rfl⟩
  · rw [if_neg h1]
    rcases push_shape vm (some (.str (x ++ y))) with ⟨_, hp⟩ | ⟨_, hp⟩
    · exact Or.inl ⟨_, hp⟩
    · exact Or.inr ⟨_, hp, rfl⟩

/-- Shape of executeBinaryOperation from a stack of depth at least two:
whatever the operand slots hold, the helper errors, panics, or succeeds with
the two operands replaced by one result. -/
theorem execBin_shape (vm : VM) (b : Nat) (n : Nat) (hsp : vm.sp = n + 2) :
    (∃ m, executeBinaryOperation vm b = .err m) ∨
      (∃ m, executeBinaryOperation vm b = .panicked m) ∨
      (∃ vm', executeBinaryOperation vm b = .ok vm' ∧ vm'.sp = n + 1) := by
  have hpop1 : pop vm = some (vm.stack (n + 1), { vm with sp := n + 1 }) := by
    simp [pop, hsp]
  have hpop2 : pop { vm with sp := n + 1 } =
      some (vm.stack n, { vm with sp := n }) := by
    simp [pop]
  rw [executeBinaryOperation]
  rw [hpop1]
  simp only []
  rw [hpop2]
  simp only []
  cases hl : vm.stack n with
  | none =>
    cases hr : vm.stack (n + 1) with
    | none => exact Or.inr (Or.inl ⟨_, rfl⟩)
    | some o2 =>
      cases o2 <;> exact Or.inr (Or.inl ⟨_, rfl⟩)
  | some o1 =>
    cases hr : vm.stack (n + 1) with
    | none => cases o1 <;> exact Or.inr (Or.inl ⟨_, rfl⟩)
    | some o2 =>
      cases o1 <;> cases o2 <;>
        first
        | exact Or.inl ⟨_, rfl⟩
        | (rcases execIntBin_shape { vm with sp := n } b _ _ with ⟨m, hm⟩ | ⟨m, hm⟩ | ⟨vm', hm, hsp'⟩
           · exact Or.inl ⟨m, hm⟩
           · exact Or.inr (Or.inl ⟨m, hm⟩)
           · exact Or.inr (Or.inr ⟨vm', hm, hsp'⟩))
        | (rcases execStrBin_shape { vm with sp := n } b _ _ with ⟨m, hm⟩ | ⟨vm', hm, hsp'⟩
           · exact Or.inl ⟨m, hm⟩
           · exact Or.inr (Or.inr ⟨vm', hm, hsp'⟩))

/-- Coarse OpConstant step: whatever the operand bytes decode to, the
instruction fails the run or continues with sp incremented. -/
theorem constStepCoarse (P : List Obj) (ins : List Nat) (ip fuel : Nat) (vm : VM)
    (b1 b2 : Nat)
    (h0 : ins[ip]? = some 0) (h1 : ins[ip + 1]? = some b1)
    (h2 : ins[ip + 2]? = some b2) (hf : 1 ≤ fuel) :
    isFail (runLoop P ins fuel ip vm) ∨
      ∃ vm', runLoop P ins fuel ip vm = runLoop P ins (fuel - 1) (ip + 3) vm' ∧
        vm'.sp = vm.sp + 1 := by
  obtain ⟨m, rfl⟩ : ∃ m, fuel = m + 1 := ⟨fuel - 1, by omega⟩
  rw [runLoop]
  simp only [h0, h1, h2]
  cases hP : P[b1 * 256 + b2]? with
  | none => exact Or.inl (Or.inr ⟨_, rfl⟩)
  | some o =>
    rcases push_shape vm (some o) with ⟨_, hp⟩ | ⟨_, hp⟩
    · refine Or.inl (Or.inl ⟨"stack overflow", ?_⟩)
      simp only [hp]
    · refine Or.inr ⟨writeTop vm (some o), ?_, rfl⟩
      simp only [hp]
      rfl

/-- Coarse arithmetic step: an arithmetic opcode fails the run or continues
with the stack depth reduced by one. -/
theorem binStepCoarse (P : List Obj) (ins : List Nat) (ip fuel : Nat) (vm : VM)
    (b : Nat) (hb : b = 1 ∨ b = 3 ∨ b = 4 ∨ b = 5)
    (hbyte : ins[ip]? = some b) (hf : 1 ≤ fuel) :
    isFail (runLoop P ins fuel ip vm) ∨
      ∃ vm', 2 ≤ vm.sp ∧
        runLoop P ins fuel ip vm = runLoop P ins (fuel - 1) (ip + 1) vm' ∧
        vm'.sp = vm.sp - 1 := by
  obtain ⟨m, rfl⟩ : ∃ m, fuel = m + 1 := ⟨fuel - 1, by omega⟩
  by_cases hsp2 : 2 ≤ vm.sp
  · rcases execBin_shape vm b (vm.sp - 2) (by omega) with ⟨msg, heq⟩ | ⟨msg, heq⟩ |
      ⟨vm', heq, hsp'⟩
    · refine Or.inl (Or.inl ⟨msg, ?_⟩)
      rcases hb with rfl | rfl | rfl | rfl <;> (rw [runLoop]; simp only [hbyte, heq])
    · refine Or.inl (Or.inr ⟨msg, ?_⟩)
      rcases hb with rfl | rfl | rfl | rfl <;> (rw [runLoop]; simp only [hbyte, heq])
    · refine Or.inr ⟨vm', hsp2, ?_, by omega⟩
      rcases hb with rfl | rfl | rfl | rfl <;>
        (rw [runLoop]; simp only [hbyte, heq]; rfl)
  · have hfailbin : executeBinaryOperation vm b = .panicked indexOutOfRange := by
      by_cases h0 : vm.sp = 0
      · simp [executeBinaryOperation, pop, h0]
      · have h1 : vm.sp = 1 := by omega
        simp [executeBinaryOperation, pop, h1]
    refine Or.inl (Or.inr ⟨indexOutOfRange, ?_⟩)
    rcases hb with rfl | rfl | rfl | rfl <;> (rw [runLoop]; simp only [hbyte, hfailbin])

/-- Executing an OpPop instruction: stack-underflow panic at sp = 0, else
continuation with sp decremented and the stack contents untouched. -/
theorem popStep (P : List Obj) (ins : List Nat) (ip fuel : Nat) (vm : VM)
    (hbyte : ins[ip]? = some 2) (hf : 1 ≤ fuel) :
    vm.sp = 0 ∧ runLoop P ins fuel ip vm = .panicked indexOutOfRange ∨
      ∃ vm', 1 ≤ vm.sp ∧
        runLoop P ins fuel ip vm = runLoop P ins (fuel - 1) (ip + 1) vm' ∧
        vm'.sp = vm.sp - 1 ∧ vm'.stack = vm.stack := by
  obtain ⟨m, rfl⟩ : ∃ m, fuel = m + 1 := ⟨fuel - 1, by omega⟩
  rw [runLoop, hbyte]
  by_cases hsp : vm.sp = 0
  · left
    refine ⟨hsp, ?_⟩
    simp [pop, hsp]
  · right
    refine ⟨{ vm with sp := vm.sp - 1 }, by omega, ?_, rfl, rfl⟩
    have hpop : pop vm = some (vm.stack (vm.sp - 1), { vm with sp := vm.sp - 1 }) := by
      simp [pop, hsp]
    simp only [hpop]
    rfl

/-! ## The expression simulation lemmas -/

/-- Compiled form of an integer literal: an OpConstant instruction whose
operand is the index of the appended constant. -/
theorem compileExpr_intLit (c : Compiler) (n : Int) :
    compileExpr c (.IntegerLiteral n) =
      .ok ⟨c.instructions ++ [0, c.constants.length / 256 % 256, c.constants.length % 256],
           c.constants ++ [.integer n]⟩ := rfl

/-- Simulation of a supported expression: executing its compiled code from
any state either fails the run with a stack overflow or a division-by-zero
panic, or reaches the end of the segment having pushed exactly the reference
value of the expression. -/
theorem exprSim :
    ∀ (e : Expr) (c c' : Compiler), supported e = true → compileExpr c e = .ok c' →
    ∀ (P t : List Obj) (ins : List Nat) (base : Nat) (di : List Nat),
      c'.instructions = c.instructions ++ di →
      P = c'.constants ++ t →
      P.length ≤ 65536 →
      SegAt ins base di →
    ∀ (vm : VM) (fuel : Nat), di.length ≤ fuel →
      (∃ vm' used v, used ≤ di.length ∧
        runLoop P ins fuel base vm = runLoop P ins (fuel - used) (base + di.length) vm' ∧
        evalExpr e = some v ∧ vm'.sp = vm.sp + 1 ∧
        vm'.stack vm.sp = some (.integer v) ∧
        (∀ k, k < vm.sp → vm'.stack k = vm.stack k)) ∨
      runLoop P ins fuel base vm = .err "stack overflow" ∨
      runLoop P ins fuel base vm = .panicked divideByZero
  | .IntegerLiteral n, c, c', hs, h, P, t, ins, base, di, hins, hP, hPlen, hseg, vm, fuel, hfuel => by
    rw [compileExpr_intLit] at h
    have hc' : c' = ⟨c.instructions ++ [0, c.constants.length / 256 % 256,
        c.constants.length % 256], c.constants ++ [.integer n]⟩ :=
      ((Except.ok.injEq _ _).mp h).symm
    subst hc'
    have hdi : di = [0, c.constants.length / 256 % 256, c.constants.length % 256] :=
      (List.append_cancel_left hins).symm
    subst hdi
    have hf3 : 3 ≤ fuel := by simpa using hfuel
    have hidxlt : c.constants.length < 65536 := by
      have hPl : P.length = c.constants.length + 1 + t.length := by
        rw [hP]
        simp
        omega
      omega
    have hPidx : P[c.constants.length % 65536]? = some (.integer n) := by
      rw [Nat.mod_eq_of_lt hidxlt]
      have hP2 : P = c.constants ++ (Obj.integer n :: t) := by rw [hP]; simp
      rw [hP2, List.getElem?_append_right (le_refl _)]
      simp
    have h0 : ins[base]? = some 0 := by
      have := segAt_byte hseg 0 0 rfl
      simpa using this
    have h1 : ins[base + 1]? = some (c.constants.length / 256 % 256) :=
      segAt_byte hseg 1 _ rfl
    have h2 : ins[base + 2]? = some (c.constants.length % 256) :=
      segAt_byte hseg 2 _ rfl
    rcases constStep P ins base fuel vm c.constants.length (.integer n)
        h0 h1 h2 hPidx (by omega) with ⟨hov, heq⟩ | ⟨vm', hlt, heq, hsp', hself, hpres⟩
    · exact Or.inr (Or.inl heq)
    · left
      refine ⟨vm', 1, n, by simp, ?_, rfl, hsp', hself,
        fun k hk => hpres k (by omega)⟩
      rw [heq]
      rfl
  | .InfixExpression l op r, c, c', hs, h, P, t, ins, base, di, hins, hP, hPlen, hseg, vm, fuel, hfuel => by
    obtain ⟨c1, c2, h1, h2, hcase⟩ := compileExpr_infix_inv h
    have hop : (op == "+" || op == "-" || op == "*" || op == "/") = true := by
      rcases hcase with ⟨rfl, _⟩ | ⟨rfl, _⟩ | ⟨rfl, _⟩ | ⟨rfl, _⟩ <;> rfl
    rw [supported] at hs
    obtain ⟨hsl, hsr⟩ : supported l = true ∧ supported r = true := by
      rw [hop] at hs
      simpa using hs
    obtain ⟨di1, dc1, e1, f1⟩ := compileExpr_mono l c c1 h1
    obtain ⟨di2, dc2, e2, f2⟩ := compileExpr_mono r c1 c2 h2
    obtain ⟨b, hb4, hc2, heval⟩ :
        ∃ b, (b = 1 ∨ b = 3 ∨ b = 4 ∨ b = 5) ∧
          c' = ⟨c2.instructions ++ [b], c2.constants⟩ ∧
          (∀ vl vr : Int, evalExpr l = some vl → evalExpr r = some vr →
            (b = 5 → vr ≠ 0) →
            evalExpr (.InfixExpression l op r) = some (arithValue b vl vr)) := by
      rcases hcase with ⟨rfl, hc⟩ | ⟨rfl, hc⟩ | ⟨rfl, hc⟩ | ⟨rfl, hc⟩
      · exact ⟨1, by omega, by rw [hc, emit_opAdd],
          fun vl vr hvl hvr _ => by simp [evalExpr, hvl, hvr, arithValue]⟩
      · exact ⟨3, by omega, by rw [hc, emit_opSub],
          fun vl vr hvl hvr _ => by simp [evalExpr, hvl, hvr, arithValue]⟩
      · exact ⟨4, by omega, by rw [hc, emit_opMul],
          fun vl vr hvl hvr _ => by simp [evalExpr, hvl, hvr, arithValue]⟩
      · exact ⟨5, by omega, by rw [hc, emit_opDiv],
          fun vl vr hvl hvr h5 => by simp [evalExpr, hvl, hvr, arithValue, h5 rfl]⟩
    have hdi : di = di1 ++ di2 ++ [b] := by
      have hh : c.instructions ++ di = c.instructions ++ (di1 ++ di2 ++ [b]) := by
        rw [← hins, hc2]
        simp [e2, e1]
      exact List.append_cancel_left hh
    subst hdi
    have hfu : di1.length + di2.length + 1 ≤ fuel := by simpa using hfuel
    have hPl : P = c1.constants ++ (dc2 ++ t) := by
      rw [hP, hc2]
      simp [f2]
    have hseg12 := segAt_left hseg
    have hseg1 := segAt_left hseg12
    have hseg2 := segAt_right hseg12
    have hsegb := segAt_right hseg
    have hbbyte : ins[base + di1.length + di2.length]? = some b := by
      have hx := segAt_byte hsegb 0 b rfl
      have hy : base + (di1 ++ di2).length + 0 = base + di1.length + di2.length := by
        simp [Nat.add_assoc]
      rwa [hy] at hx
    rcases exprSim l c c1 hsl h1 P (dc2 ++ t) ins base di1 e1 hPl hPlen hseg1 vm fuel
        (by omega) with ⟨vm1, u1, vl, hu1, heq1, hevl, hsp1, hst1, hpres1⟩ | herr | hpan
    · rcases exprSim r c1 c2 hsr h2 P t ins (base + di1.length) di2 e2
          (by rw [hP, hc2]) hPlen hseg2 vm1 (fuel - u1) (by omega) with
          ⟨vm2, u2, vr, hu2, heq2, hevr, hsp2, hst2, hpres2⟩ | herr | hpan
      · have hsp2' : vm2.sp = vm.sp + 2 := by rw [hsp2, hsp1]
        have hvr2 : vm2.stack (vm.sp + 1) = some (.integer vr) := by
          rw [← hsp1]
          exact hst2
        have hvl2 : vm2.stack vm.sp = some (.integer vl) := by
          rw [hpres2 vm.sp (by omega)]
          exact hst1
        rcases arithStep P ins (base + di1.length + di2.length) (fuel - u1 - u2) vm2
            vm.sp vl vr b hb4 hbbyte hsp2' hvr2 hvl2 (by omega) with
            herr | ⟨heqd, hb5, hvr0⟩ | ⟨vm3, h5, heq3, hsp3, hst3, hpres3⟩
        · right; left
          rw [heq1, heq2]
          exact herr
        · right; right
          rw [heq1, heq2]
          exact heqd
        · left
          refine ⟨vm3, u1 + u2 + 1, arithValue b vl vr, by simp; omega, ?_,
            heval vl vr hevl hevr h5, hsp3, hst3, ?_⟩
          · rw [heq1, heq2, heq3]
            have hx : fuel - u1 - u2 - 1 = fuel - (u1 + u2 + 1) := by omega
            have hy : base + di1.length + di2.length + 1 =
                base + (di1 ++ di2 ++ [b]).length := by
              simp
              omega
            rw [hx, hy]
          · intro k hk
            rw [hpres3 k (by omega), hpres2 k (by omega), hpres1 k hk]
      · right; left
        rw [heq1]
        exact herr
      · right; right
        rw [heq1]
        exact hpan
    · exact Or.inr (Or.inl herr)
    · exact Or.inr (Or.inr hpan)
  | .Identifier v, _, _, hs, _, _, _, _, _, _, _, _, _, _, _, _, _ => by
    simp [supported] at hs
  | .PrefixExpression o e, _, _, hs, _, _, _, _, _, _, _, _, _, _, _, _, _ => by
    simp [supported] at hs
  | .Boolean bv, _, _, hs, _, _, _, _, _, _, _, _, _, _, _, _, _ => by
    simp [supported] at hs
  | .IfExpression a bb d, _, _, hs, _, _, _, _, _, _, _, _, _, _, _, _, _ => by
    simp [supported] at hs
  | .StringLiteral sv, _, _, hs, _, _, _, _, _, _, _, _, _, _, _, _, _ => by
    simp [supported] at hs
  | .FunctionLiteral ps bd, _, _, hs, _, _, _, _, _, _, _, _, _, _, _, _, _ => by
    simp [supported] at hs
  | .CallExpression f a, _, _, hs, _, _, _, _, _, _, _, _, _, _, _, _, _ => by
    simp [supported] at hs
  | .ArrayLiteral es, _, _, hs, _, _, _, _, _, _, _, _, _, _, _, _, _ => by
    simp [supported] at hs

theorem isFail_congr {a b : Outcome} (h : a = b) (hf : isFail b) : isFail a := by
  rw [h]
  exact hf

/-- Simulation of an arbitrary compilable expression tracking only the net
stack effect: the compiled code fails the run, or reaches the end of the
segment with sp shifted by the static net effect of the expression. -/
theorem netSim :
    ∀ (e : Expr) (c c' : Compiler), compileExpr c e = .ok c' →
    ∀ (P : List Obj) (ins : List Nat) (base : Nat) (di : List Nat),
      c'.instructions = c.instructions ++ di →
      SegAt ins base di →
    ∀ (vm : VM) (fuel : Nat), di.length ≤ fuel →
      (∃ vm' used, used ≤ di.length ∧
        runLoop P ins fuel base vm = runLoop P ins (fuel - used) (base + di.length) vm' ∧
        (vm'.sp : Int) = vm.sp + netE e) ∨
      isFail (runLoop P ins fuel base vm)
  | .IntegerLiteral n, c, c', h, P, ins, base, di, hins, hseg, vm, fuel, hfuel => by
    rw [compileExpr_intLit] at h
    have hc' : c' = ⟨c.instructions ++ [0, c.constants.length / 256 % 256,
        c.constants.length % 256], c.constants ++ [.integer n]⟩ :=
      ((Except.ok.injEq _ _).mp h).symm
    subst hc'
    have hdi : di = [0, c.constants.length / 256 % 256, c.constants.length % 256] :=
      (List.append_cancel_left hins).symm
    subst hdi
    have hf3 : 3 ≤ fuel := by simpa using hfuel
    have h0 : ins[base]? = some 0 := by
      have := segAt_byte hseg 0 0 rfl
      simpa using this
    have h1 : ins[base + 1]? = some (c.constants.length / 256 % 256) :=
      segAt_byte hseg 1 _ rfl
    have h2 : ins[base + 2]? = some (c.constants.length % 256) :=
      segAt_byte hseg 2 _ rfl
    rcases constStepCoarse P ins base fuel vm _ _ h0 h1 h2 (by omega) with
      hfail | ⟨vm', heq, hsp'⟩
    · exact Or.inr hfail
    · left
      refine ⟨vm', 1, by simp, ?_, ?_⟩
      · rw [heq]
        rfl
      · rw [hsp', netE]
        push_cast
        ring
  | .InfixExpression l op r, c, c', h, P, ins, base, di, hins, hseg, vm, fuel, hfuel => by
    obtain ⟨c1, c2, h1, h2, hcase⟩ := compileExpr_infix_inv h
    obtain ⟨di1, dc1, e1, f1⟩ := compileExpr_mono l c c1 h1
    obtain ⟨di2, dc2, e2, f2⟩ := compileExpr_mono r c1 c2 h2
    obtain ⟨b, hb4, hc2⟩ :
        ∃ b, (b = 1 ∨ b = 3 ∨ b = 4 ∨ b = 5) ∧
          c' = ⟨c2.instructions ++ [b], c2.constants⟩ := by
      rcases hcase with ⟨rfl, hc⟩ | ⟨rfl, hc⟩ | ⟨rfl, hc⟩ | ⟨rfl, hc⟩
      · exact ⟨1, by omega, by rw [hc, emit_opAdd]⟩
      · exact ⟨3, by omega, by rw [hc, emit_opSub]⟩
      · exact ⟨4, by omega, by rw [hc, emit_opMul]⟩
      · exact ⟨5, by omega, by rw [hc, emit_opDiv]⟩
    have hdi : di = di1 ++ di2 ++ [b] := by
      have hh : c.instructions ++ di = c.instructions ++ (di1 ++ di2 ++ [b]) := by
        rw [← hins, hc2]
        simp [e2, e1]
      exact List.append_cancel_left hh
    subst hdi
    have hfu : di1.length + di2.length + 1 ≤ fuel := by simpa using hfuel
    have hseg12 := segAt_left hseg
    have hseg1 := segAt_left hseg12
    have hseg2 := segAt_right hseg12
    have hsegb := segAt_right hseg
    have hbbyte : ins[base + di1.length + di2.length]? = some b := by
      have hx := segAt_byte hsegb 0 b rfl
      have hy : base + (di1 ++ di2).length + 0 = base + di1.length + di2.length := by
        simp [Nat.add_assoc]
      rwa [hy] at hx
    rcases netSim l c c1 h1 P ins base di1 e1 hseg1 vm fuel (by omega) with
      ⟨vm1, u1, hu1, heq1, hsp1⟩ | hfail
    · rcases netSim r c1 c2 h2 P ins (base + di1.length) di2 e2 hseg2 vm1
          (fuel - u1) (by omega) with ⟨vm2, u2, hu2, heq2, hsp2⟩ | hfail
      · rcases binStepCoarse P ins (base + di1.length + di2.length) (fuel - u1 - u2)
            vm2 b hb4 hbbyte (by omega) with hfail | ⟨vm3, hge2, heq3, hsp3⟩
        · exact Or.inr (isFail_congr (by rw [heq1, heq2]) hfail)
        · left
          refine ⟨vm3, u1 + u2 + 1, by simp; omega, ?_, ?_⟩
          · rw [heq1, heq2, heq3]
            have hx : fuel - u1 - u2 - 1 = fuel - (u1 + u2 + 1) := by omega
            have hy : base + di1.length + di2.length + 1 =
                base + (di1 ++ di2 ++ [b]).length := by
              simp
              omega
            rw [hx, hy]
          · have h3 : (vm3.sp : Int) = (vm2.sp : Int) - 1 := by omega
            have hne : netE (.InfixExpression l op r) = netE l + netE r - 1 := rfl
            rw [hne]
            omega
      · exact Or.inr (isFail_congr heq1 hfail)
    · exact Or.inr hfail
  | .Identifier v, c, c', h, P, ins, base, di, hins, hseg, vm, fuel, hfuel => by
    simp only [compileExpr, Except.ok.injEq] at h
    subst h
    have hdi : di = [] := by
      have := congrArg List.length hins
      simp at this
      exact this
    subst hdi
    exact Or.inl ⟨vm, 0, by simp, by simp, by simp [netE]⟩
  | .PrefixExpression o e, c, c', h, P, ins, base, di, hins, hseg, vm, fuel, hfuel => by
    simp only [compileExpr, Except.ok.injEq] at h
    subst h
    have hdi : di = [] := by
      have := congrArg List.length hins
      simp at this
      exact this
    subst hdi
    exact Or.inl ⟨vm, 0, by simp, by simp, by simp [netE]⟩
  | .Boolean bv, c, c', h, P, ins, base, di, hins, hseg, vm, fuel, hfuel => by
    simp only [compileExpr, Except.ok.injEq] at h
    subst h
    have hdi : di = [] := by
      have := congrArg List.length hins
      simp at this
      exact this
    subst hdi
    exact Or.inl ⟨vm, 0, by simp, by simp, by simp [netE]⟩
  | .IfExpression a bb d, c, c', h, P, ins, base, di, hins, hseg, vm, fuel, hfuel => by
    simp only [compileExpr, Except.ok.injEq] at h
    subst h
    have hdi : di = [] := by
      have := congrArg List.length hins
      simp at this
      exact this
    subst hdi
    exact Or.inl ⟨vm, 0, by simp, by simp, by simp [netE]⟩
  | .StringLiteral sv, c, c', h, P, ins, base, di, hins, hseg, vm, fuel, hfuel => by
    simp only [compileExpr, Except.ok.injEq] at h
    subst h
    have hdi : di = [] := by
      have := congrArg List.length hins
      simp at this
      exact this
    subst hdi
    exact Or.inl ⟨vm, 0, by simp, by simp, by simp [netE]⟩
  | .FunctionLiteral ps bd, c, c', h, P, ins, base, di, hins, hseg, vm, fuel, hfuel => by
    simp only [compileExpr, Except.ok.injEq] at h
    subst h
    have hdi : di = [] := by
      have := congrArg List.length hins
      simp at this
      exact this
    subst hdi
    exact Or.inl ⟨vm, 0, by simp, by simp, by simp [netE]⟩
  | .CallExpression f a, c, c', h, P, ins, base, di, hins, hseg, vm, fuel, hfuel => by
    simp only [compileExpr, Except.ok.injEq] at h
    subst h
    have hdi : di = [] := by
      have := congrArg List.length hins
      simp at this
      exact this
    subst hdi
    exact Or.inl ⟨vm, 0, by simp, by simp, by simp [netE]⟩
  | .ArrayLiteral es, c, c', h, P, ins, base, di, hins, hseg, vm, fuel, hfuel => by
    simp only [compileExpr, Except.ok.injEq] at h
    subst h
    have hdi : di = [] := by
      have := congrArg List.length hins
      simp at this
      exact this
    subst hdi
    exact Or.inl ⟨vm, 0, by simp, by simp, by simp [netE]⟩

/-! ## Statement-level lemmas -/

/-- Inversion of compiling an expression statement: compile the expression,
then append the OpPop byte. -/
theorem compileStmt_exprStmt_inv {c c1 : Compiler} {e : Expr}
    (h : compileStmt c (.ExpressionStatement e) = .ok c1) :
    ∃ ce, compileExpr c e = .ok ce ∧
      c1 = ⟨ce.instructions ++ [2], ce.constants⟩ := by
  rw [compileStmt] at h
  cases hce : compileExpr c e with
  | error m =>
    rw [hce, error_bind] at h
    exact Except.noConfusion h
  | ok ce =>
    rw [hce, ok_bind] at h
    refine ⟨ce, rfl, ?_⟩
    rw [← (Except.ok.injEq _ _).mp h, emit_opPop]

theorem compileStmt_mono (s : Stmt) (c c' : Compiler)
    (h : compileStmt c s = .ok c') :
    ∃ di dc, c'.instructions = c.instructions ++ di ∧
      c'.constants = c.constants ++ dc := by
  cases s with
  | ExpressionStatement e =>
    obtain ⟨ce, hce, hc1⟩ := compileStmt_exprStmt_inv h
    obtain ⟨die, dce, he1, he2⟩ := compileExpr_mono e c ce hce
    subst hc1
    exact ⟨die ++ [2], dce, by simp [he1], by simp [he2]⟩
  | LetStatement nm v =>
    have hcc := (Except.ok.injEq _ _).mp h
    exact ⟨[], [], by simp [← hcc], by simp [← hcc]⟩
  | ReturnStatement v =>
    have hcc := (Except.ok.injEq _ _).mp h
    exact ⟨[], [], by simp [← hcc], by simp [← hcc]⟩
  | BlockStatement sts =>
    have hcc := (Except.ok.injEq _ _).mp h
    exact ⟨[], [], by simp [← hcc], by simp [← hcc]⟩

theorem compileStmts_mono :
    ∀ (ss : List Stmt) (c c' : Compiler), compileStmts c ss = .ok c' →
      ∃ di dc, c'.instructions = c.instructions ++ di ∧
        c'.constants = c.constants ++ dc
  | [], c, c', h => by
    have hcc := (Except.ok.injEq _ _).mp h
    exact ⟨[], [], by simp [← hcc], by simp [← hcc]⟩
  | s :: rest, c, c', h => by
    rw [compileStmts] at h
    cases hcs : compileStmt c s with
    | error m =>
      rw [hcs, error_bind] at h
      exact Except.noConfusion h
    | ok c1 =>
      rw [hcs, ok_bind] at h
      obtain ⟨d1, e1, hi1, hc1⟩ := compileStmt_mono s c c1 hcs
      obtain ⟨d2, e2, hi2, hc2⟩ := compileStmts_mono rest c1 c' h
      exact ⟨d1 ++ d2, e1 ++ e2, by simp [hi2, hi1], by simp [hc2, hc1]⟩

/-- Last expression statement of a cons with a non-expression head. -/
theorem lastExprStmt_cons_nonexpr (s : Stmt) (rest : List Stmt)
    (hns : ∀ e, s ≠ .ExpressionStatement e) :
    lastExprStmt (s :: rest) = lastExprStmt rest := by
  cases s with
  | ExpressionStatement e => exact absurd rfl (hns e)
  | LetStatement nm v =>
    change (match lastExprStmt rest with
            | some e => some e
            | none => none) = lastExprStmt rest
    cases lastExprStmt rest <;> rfl
  | ReturnStatement v =>
    change (match lastExprStmt rest with
            | some e => some e
            | none => none) = lastExprStmt rest
    cases lastExprStmt rest <;> rfl
  | BlockStatement sts =>
    change (match lastExprStmt rest with
            | some e => some e
            | none => none) = lastExprStmt rest
    cases lastExprStmt rest <;> rfl

/-- Program-level simulation.  Executing the code compiled for a statement
list from sp = 0 either fails the run (and, when every expression statement
is in the supported fragment, that failure can only be a stack overflow or a
division-by-zero panic), or reaches the end of the segment back at sp = 0
with slot 0 holding the value of the last expression statement. -/
theorem stmtsSim :
    ∀ (ss : List Stmt) (c c' : Compiler), compileStmts c ss = .ok c' →
    ∀ (P t : List Obj) (ins : List Nat) (base : Nat) (di : List Nat),
      c'.instructions = c.instructions ++ di →
      P = c'.constants ++ t →
      P.length ≤ 65536 →
      SegAt ins base di →
    ∀ (vm : VM) (fuel : Nat), vm.sp = 0 → di.length ≤ fuel →
      (∃ vm' used, used ≤ di.length ∧
        runLoop P ins fuel base vm = runLoop P ins (fuel - used) (base + di.length) vm' ∧
        vm'.sp = 0 ∧
        (∀ e, lastExprStmt ss = some e →
          ∃ v, evalExpr e = some v ∧ vm'.stack 0 = some (.integer v)) ∧
        (lastExprStmt ss = none → vm'.stack 0 = vm.stack 0)) ∨
      (isFail (runLoop P ins fuel base vm) ∧
        (allSupported ss = true →
          runLoop P ins fuel base vm = .err "stack overflow" ∨
          runLoop P ins fuel base vm = .panicked divideByZero))
  | [], c, c', h, P, t, ins, base, di, hins, hP, hPlen, hseg, vm, fuel, hsp0, hfuel => by
    have hcc : c = c' := (Except.ok.injEq _ _).mp h
    subst hcc
    have hdi : di = [] := by
      have := congrArg List.length hins
      simp at this
      exact this
    subst hdi
    left
    refine ⟨vm, 0, by simp, by simp, hsp0, ?_, fun _ => rfl⟩
    intro e he
    exact absurd he (by simp [lastExprStmt])
  | s :: rest, c, c', h, P, t, ins, base, di, hins, hP, hPlen, hseg, vm, fuel, hsp0, hfuel => by
    rw [compileStmts] at h
    cases hcs : compileStmt c s with
    | error m =>
      rw [hcs, error_bind] at h
      exact Except.noConfusion h
    | ok c1 =>
    rw [hcs, ok_bind] at h
    cases s with
    | LetStatement nm v =>
      have hcc : c = c1 := (Except.ok.injEq _ _).mp hcs
      subst hcc
      have hlast := lastExprStmt_cons_nonexpr (.LetStatement nm v) rest
        (fun e he => Stmt.noConfusion he)
      rcases stmtsSim rest c c' h P t ins base di hins hP hPlen hseg vm fuel hsp0 hfuel with
        ⟨vm', used, hu, heq, hsp', hsome, hnone⟩ | ⟨hfail, href⟩
      · exact Or.inl ⟨vm', used, hu, heq, hsp',
          fun e he => hsome e (by rwa [hlast] at he),
          fun he => hnone (by rwa [hlast] at he)⟩
      · refine Or.inr ⟨hfail, fun hall => href ?_⟩
        simpa [allSupported] using hall
    | ReturnStatement v =>
      have hcc : c = c1 := (Except.ok.injEq _ _).mp hcs
      subst hcc
      have hlast := lastExprStmt_cons_nonexpr (.ReturnStatement v) rest
        (fun e he => Stmt.noConfusion he)
      rcases stmtsSim rest c c' h P t ins base di hins hP hPlen hseg vm fuel hsp0 hfuel with
        ⟨vm', used, hu, heq, hsp', hsome, hnone⟩ | ⟨hfail, href⟩
      · exact Or.inl ⟨vm', used, hu, heq, hsp',
          fun e he => hsome e (by rwa [hlast] at he),
          fun he => hnone (by rwa [hlast] at he)⟩
      · refine Or.inr ⟨hfail, fun hall => href ?_⟩
        simpa [allSupported] using hall
    | BlockStatement sts =>
      have hcc : c = c1 := (Except.ok.injEq _ _).mp hcs
      subst hcc
      have hlast := lastExprStmt_cons_nonexpr (.BlockStatement sts) rest
        (fun e he => Stmt.noConfusion he)
      rcases stmtsSim rest c c' h P t ins base di hins hP hPlen hseg vm fuel hsp0 hfuel with
        ⟨vm', used, hu, heq, hsp', hsome, hnone⟩ | ⟨hfail, href⟩
      · exact Or.inl ⟨vm', used, hu, heq, hsp',
          fun e he => hsome e (by rwa [hlast] at he),
          fun he => hnone (by rwa [hlast] at he)⟩
      · refine Or.inr ⟨hfail, fun hall => href ?_⟩
        simpa [allSupported] using hall
    | ExpressionStatement e =>
      obtain ⟨ce, hce, hc1⟩ := compileStmt_exprStmt_inv hcs
      obtain ⟨die, dce, hei, hec⟩ := compileExpr_mono e c ce hce
      obtain ⟨dir, dcr, hri, hrc⟩ := compileStmts_mono rest c1 c' h
      have hdi : di = die ++ [2] ++ dir := by
        have hh : c.instructions ++ di = c.instructions ++ (die ++ [2] ++ dir) := by
          rw [← hins, hri, hc1]
          simp [hei]
        exact List.append_cancel_left hh
      subst hdi
      have hfu : die.length + 1 + dir.length ≤ fuel := by
        have := hfuel
        simp at this
        omega
      have hseg12 := segAt_left hseg
      have hsegE := segAt_left hseg12
      have hsegP := segAt_right hseg12
      have hsegR := segAt_right hseg
      have hpopbyte : ins[base + die.length]? = some 2 := by
        have hx := segAt_byte hsegP 0 2 rfl
        simpa using hx
      have hsegR' : SegAt ins (base + die.length + 1) dir := by
        have hy : base + (die ++ [2]).length = base + die.length + 1 := by
          rw [List.length_append, List.length_singleton]
          omega
        rwa [hy] at hsegR
      have hPe : P = ce.constants ++ (dcr ++ t) := by
        rw [hP, hrc, hc1]
        simp
      cases hsup : supported e with
      | true =>
        rcases exprSim e c ce hsup hce P (dcr ++ t) ins base die hei hPe hPlen hsegE
            vm fuel (by omega) with
            ⟨vm1, u1, v, hu1, heq1, hev, hsp1, hst1, _⟩ | herr | hpan
        · have hsp1' : vm1.sp = 1 := by rw [hsp1, hsp0]
          rcases popStep P ins (base + die.length) (fuel - u1) vm1 hpopbyte
              (by omega) with ⟨hz, _⟩ | ⟨vm2, _, heqP, hsp2, hstk2⟩
          · omega
          · have hsp2' : vm2.sp = 0 := by omega
            have hst2 : vm2.stack 0 = some (.integer v) := by
              rw [hstk2, ← hsp0]
              exact hst1
            rcases stmtsSim rest c1 c' h P t ins (base + die.length + 1) dir hri hP
                hPlen hsegR' vm2 (fuel - u1 - 1) hsp2' (by omega) with
                ⟨vm', u2, hu2, heq2, hsp', hsome, hnone⟩ | ⟨hfail, href⟩
            · left
              refine ⟨vm', u1 + 1 + u2, by simp; omega, ?_, hsp', ?_, ?_⟩
              · rw [heq1, heqP, heq2]
                have hx : fuel - u1 - 1 - u2 = fuel - (u1 + 1 + u2) := by omega
                have hy : base + die.length + 1 + dir.length =
                    base + (die ++ [2] ++ dir).length := by
                  simp
                  omega
                rw [hx, hy]
              · intro e' he'
                rw [lastExprStmt] at he'
                cases hrest : lastExprStmt rest with
                | some e2 =>
                  rw [hrest] at he'
                  injection he' with hee
                  subst hee
                  exact hsome _ hrest
                | none =>
                  rw [hrest] at he'
                  injection he' with hee
                  subst hee
                  exact ⟨v, hev, by rw [hnone hrest]; exact hst2⟩
              · intro hnn
                rw [lastExprStmt] at hnn
                cases hrest : lastExprStmt rest with
                | some e2 => rw [hrest] at hnn; exact Option.noConfusion hnn
                | none => rw [hrest] at hnn; exact Option.noConfusion hnn
            · refine Or.inr ⟨isFail_congr (by rw [heq1, heqP]) hfail, fun hall => ?_⟩
              have hallr : allSupported rest = true := by
                simpa [allSupported, hsup] using hall
              rcases href hallr with he | he
              · exact Or.inl (by rw [heq1, heqP]; exact he)
              · exact Or.inr (by rw [heq1, heqP]; exact he)
        · exact Or.inr ⟨Or.inl ⟨_, herr⟩, fun _ => Or.inl herr⟩
        · exact Or.inr ⟨Or.inr ⟨_, hpan⟩, fun _ => Or.inr hpan⟩
      | false =>
        rcases netSim e c ce hce P ins base die hei hsegE vm fuel (by omega) with
            ⟨vm1, u1, hu1, heq1, hsp1⟩ | hfail
        · have hnet := (netE_bounds e c ce hce).2 hsup
          have hsp1' : vm1.sp = 0 := by omega
          rcases popStep P ins (base + die.length) (fuel - u1) vm1 hpopbyte
              (by omega) with ⟨_, heqP⟩ | ⟨vm2, hge1, _, _, _⟩
          · refine Or.inr ⟨Or.inr ⟨_, by rw [heq1]; exact heqP⟩, fun hall => ?_⟩
            exfalso
            have hse : supported e = true := by
              simp [allSupported] at hall
              exact hall.1
            rw [hsup] at hse
            exact Bool.noConfusion hse
          · omega
        · refine Or.inr ⟨hfail, fun hall => ?_⟩
          exfalso
          have hse : supported e = true := by
            simp [allSupported] at hall
            exact hall.1
          rw [hsup] at hse
          exact Bool.noConfusion hse

/-! ## Main end-to-end theorems -/

/-- C2 amended: for every program the Compiler compiles without error whose
constants pool has at most 65536 entries, if the VM's Run completes without
error then LastPoppedStackElem is exactly the value of the program's last
expression statement (OpPop leaves the popped value at stack[sp]). -/
theorem run_lastPopped (p : List Stmt) (c' : Compiler) (vm : VM) (e : Expr)
    (hc : compileProgram p = .ok c')
    (hpool : c'.constants.length ≤ 65536)
    (hrun : RunVM c' = .ok vm)
    (hlast : lastExprStmt p = some e) :
    ∃ v, evalExpr e = some v ∧ vm.sp = 0 ∧
      LastPoppedStackElem vm = some (.integer v) := by
  rw [compileProgram] at hc
  rcases stmtsSim p NewCompiler c' hc c'.constants [] c'.instructions 0
      c'.instructions (by simp [NewCompiler]) (by simp) hpool (segAt_refl _) NewVM
      (c'.instructions.length + 1) rfl (by omega) with
      ⟨vm', used, hu, heq, hsp', hsome, _⟩ | ⟨hfail, _⟩
  · have hend : runLoop c'.constants c'.instructions
        (c'.instructions.length + 1 - used) (0 + c'.instructions.length) vm' =
        .ok vm' := by
      apply runLoop_exit
      · exact List.getElem?_eq_none (by omega)
      · omega
    rw [RunVM, heq, hend] at hrun
    have hvm : vm' = vm := by
      injection hrun
    subst hvm
    obtain ⟨v, hev, hstk⟩ := hsome e hlast
    refine ⟨v, hev, hsp', ?_⟩
    rw [LastPoppedStackElem, hsp']
    exact hstk
  · rw [RunVM] at hrun
    rcases hfail with ⟨m, hm⟩ | ⟨m, hm⟩ <;> rw [hm] at hrun <;>
      exact Outcome.noConfusion hrun

/-- Witness for the amended C2 at the one-statement program `7`. -/
theorem run_lastPopped_witness :
    ∃ v, evalExpr (.IntegerLiteral 7) = some v ∧
      (⟨fun k => if k = 0 then some (.integer 7) else none, 0,
        fun _ => none⟩ : VM).sp = 0 ∧
      LastPoppedStackElem
        ⟨fun k => if k = 0 then some (.integer 7) else none, 0, fun _ => none⟩ =
        some (.integer v) :=
  run_lastPopped [.ExpressionStatement (.IntegerLiteral 7)]
    ⟨[0, 0, 0, 2], [.integer 7]⟩
    ⟨fun k => if k = 0 then some (.integer 7) else none, 0, fun _ => none⟩
    (.IntegerLiteral 7) rfl (by decide) rfl rfl

/-- C9 amended: push reports a stack overflow error exactly when sp has
reached StackSize = 2048 and otherwise keeps the depth at most 2048; stack
underflow (pop at sp = 0, a Go index panic) cannot occur when running
bytecode compiled from a program whose expression statements all lie in the
supported fragment (with at most 65536 constants) — though it can occur for
other compiler outputs, see the counterexample. -/
theorem push_bounds_and_no_underflow :
    (∀ (vm : VM) (o : Option Obj), StackSize ≤ vm.sp →
      push vm o = .err "stack overflow") ∧
    (∀ (vm vm' : VM) (o : Option Obj), push vm o = .ok vm' → vm'.sp ≤ StackSize) ∧
    (∀ (p : List Stmt) (c' : Compiler), allSupported p = true →
      compileProgram p = .ok c' → c'.constants.length ≤ 65536 →
      RunVM c' ≠ .panicked indexOutOfRange) := by
  refine ⟨?_, ?_, ?_⟩
  · intro vm o h
    simp [push, h]
  · intro vm vm' o h
    rw [push] at h
    by_cases hsp : StackSize ≤ vm.sp
    · rw [if_pos hsp] at h
      exact StepR.noConfusion h
    · rw [if_neg hsp] at h
      rw [← (StepR.ok.injEq _ _).mp h, writeTop_sp]
      simp [StackSize] at hsp ⊢
      omega
  · intro p c' hall hc hpool hbad
    rw [compileProgram] at hc
    rcases stmtsSim p NewCompiler c' hc c'.constants [] c'.instructions 0
        c'.instructions (by simp [NewCompiler]) (by simp) hpool (segAt_refl _) NewVM
        (c'.instructions.length + 1) rfl (by omega) with
        ⟨vm', used, hu, heq, _, _, _⟩ | ⟨_, href⟩
    · have hend : runLoop c'.constants c'.instructions
          (c'.instructions.length + 1 - used) (0 + c'.instructions.length) vm' =
          .ok vm' := by
        apply runLoop_exit
        · exact List.getElem?_eq_none (by omega)
        · omega
      rw [RunVM, heq, hend] at hbad
      exact Outcome.noConfusion hbad
    · rw [RunVM] at hbad
      rcases href hall with he | he <;> rw [hbad] at he
      · exact Outcome.noConfusion he
      · have hmsg : indexOutOfRange = divideByZero := by
          injection he
        simp [indexOutOfRange, divideByZero] at hmsg

/-- Witness for the amended C9: a push at sp = 2048 overflows, a successful
push stays within bounds, and the supported program `7` runs with no
underflow panic. -/
theorem push_bounds_and_no_underflow_witness :
    push ⟨fun _ => none, 2048, fun _ => none⟩ none = .err "stack overflow" ∧
      (writeTop NewVM none).sp ≤ StackSize ∧
      RunVM ⟨[0, 0, 0, 2], [.integer 7]⟩ ≠ .panicked indexOutOfRange :=
  ⟨push_bounds_and_no_underflow.1 ⟨fun _ => none, 2048, fun _ => none⟩ none
      (by decide),
   push_bounds_and_no_underflow.2.1 NewVM (writeTop NewVM none) none rfl,
   push_bounds_and_no_underflow.2.2 [.ExpressionStatement (.IntegerLiteral 7)]
      ⟨[0, 0, 0, 2], [.integer 7]⟩ rfl rfl (by decide)⟩

/-! ## The 16-bit operand truncation counterexample

A program with 65537 integer-literal statements compiles without error, but
the last OpConstant operand (index 65536) is truncated by Make to 0, so the
VM silently loads constants[0] instead of the intended literal. -/

/-- The four bytes compiled for one integer-literal expression statement
whose constant got pool index idx: OpConstant with the two operand bytes of
uint16(idx), then OpPop. -/
def constInstr (idx : Nat) : List Nat := [0, idx / 256 % 256, idx % 256, 2]

/-- The code of k consecutive such statements with pool indices b, b+1, …. -/
def constBlock : Nat → Nat → List Nat
  | _, 0 => []
  | b, k + 1 => constInstr b ++ constBlock (b + 1) k

theorem constBlock_length : ∀ (k b : Nat), (constBlock b k).length = 4 * k
  | 0, _ => rfl
  | k + 1, b => by
    rw [constBlock, List.length_append, constBlock_length k (b + 1)]
    simp [constInstr]
    omega

theorem constBlock_snoc : ∀ (k b : Nat),
    constBlock b (k + 1) = constBlock b k ++ constInstr (b + k)
  | 0, b => by simp [constBlock]
  | k + 1, b => by
    show constInstr b ++ constBlock (b + 1) (k + 1) =
      constBlock b (k + 1) ++ constInstr (b + (k + 1))
    rw [constBlock_snoc k (b + 1)]
    show constInstr b ++ (constBlock (b + 1) k ++ constInstr (b + 1 + k)) =
      (constInstr b ++ constBlock (b + 1) k) ++ constInstr (b + (k + 1))
    rw [List.append_assoc]
    have harg : b + 1 + k = b + (k + 1) := by omega
    rw [harg]

/-- The program of 65537 expression statements: the first 65536 with
literal 0, the last with literal 1. -/
def bigProg : List Stmt :=
  List.replicate 65536 (.ExpressionStatement (.IntegerLiteral 0)) ++
    [.ExpressionStatement (.IntegerLiteral 1)]

/-- The bytecode artifact bigProg compiles to. -/
def cBig : Compiler :=
  ⟨constBlock 0 65537, List.replicate 65536 (Obj.integer 0) ++ [.integer 1]⟩

theorem compileStmt_intStmt (c : Compiler) (n : Int) :
    compileStmt c (.ExpressionStatement (.IntegerLiteral n)) =
      .ok ⟨c.instructions ++ constInstr c.constants.length,
           c.constants ++ [.integer n]⟩ := by
  rw [compileStmt, compileExpr_intLit, ok_bind, emit_opPop]
  simp [constInstr]

theorem compileStmts_repzero :
    ∀ (k : Nat) (c : Compiler),
      compileStmts c (List.replicate k (.ExpressionStatement (.IntegerLiteral 0))) =
        .ok ⟨c.instructions ++ constBlock c.constants.length k,
             c.constants ++ List.replicate k (.integer 0)⟩
  | 0, c => by
    simp [compileStmts, constBlock]
  | k + 1, c => by
    rw [List.replicate_succ, compileStmts, compileStmt_intStmt, ok_bind,
      compileStmts_repzero k]
    simp [constBlock, List.replicate_succ]

theorem compileStmts_append :
    ∀ (a b : List Stmt) (c c1 : Compiler), compileStmts c a = .ok c1 →
      compileStmts c (a ++ b) = compileStmts c1 b
  | [], b, c, c1, h => by
    have hcc : c = c1 := (Except.ok.injEq _ _).mp h
    subst hcc
    rfl
  | s :: rest, b, c, c1, h => by
    rw [compileStmts] at h
    cases hcs : compileStmt c s with
    | error m =>
      rw [hcs, error_bind] at h
      exact Except.noConfusion h
    | ok c2 =>
      rw [hcs, ok_bind] at h
      rw [List.cons_append, compileStmts, hcs, ok_bind]
      exact compileStmts_append rest b c2 c1 h

theorem compile_repzero_then_one (k : Nat) :
    compileProgram
        (List.replicate k (.ExpressionStatement (.IntegerLiteral 0)) ++
          [.ExpressionStatement (.IntegerLiteral 1)]) =
      .ok ⟨constBlock 0 k ++ constInstr k,
           List.replicate k (Obj.integer 0) ++ [.integer 1]⟩ := by
  rw [compileProgram,
    compileStmts_append _ _ _ _ (compileStmts_repzero k NewCompiler)]
  rw [compileStmts, compileStmt_intStmt, ok_bind]
  rw [show compileStmts
      ⟨(NewCompiler.instructions ++ constBlock NewCompiler.constants.length k) ++
          constInstr ((NewCompiler.constants ++
            List.replicate k (Obj.integer 0)).length),
        (NewCompiler.constants ++ List.replicate k (Obj.integer 0)) ++
          [Obj.integer 1]⟩ [] = .ok
      ⟨(NewCompiler.instructions ++ constBlock NewCompiler.constants.length k) ++
          constInstr ((NewCompiler.constants ++
            List.replicate k (Obj.integer 0)).length),
        (NewCompiler.constants ++ List.replicate k (Obj.integer 0)) ++
          [Obj.integer 1]⟩ from rfl]
  simp only [NewCompiler, List.nil_append, List.length_nil, List.length_append,
    List.length_replicate]

theorem compile_bigProg : compileProgram bigProg = .ok cBig := by
  have hsplit : constBlock 0 65537 = constBlock 0 65536 ++ constInstr 65536 := by
    have hsn := constBlock_snoc 65536 0
    norm_num at hsn
    exact hsn
  rw [bigProg, cBig, hsplit]
  exact compile_repzero_then_one 65536

theorem lastExprStmt_append_single :
    ∀ (xs : List Stmt) (e : Expr),
      lastExprStmt (xs ++ [.ExpressionStatement e]) = some e
  | [], e => rfl
  | s :: xs, e => by
    have hx := lastExprStmt_append_single xs e
    show (match lastExprStmt (xs ++ [.ExpressionStatement e]) with
          | some e' => some e'
          | none =>
            match s with
            | .ExpressionStatement e' => some e'
            | _ => none) = some e
    rw [hx]

/-- Running one constInstr unit: load the constant at the truncated index,
then pop, returning to sp = 0 with the loaded value left in slot 0. -/
theorem runConstUnit (P : List Obj) (ins : List Nat) (base fuel : Nat) (vm : VM)
    (idx : Nat) (o : Obj)
    (hseg : SegAt ins base (constInstr idx))
    (hidx : P[idx % 65536]? = some o)
    (hsp : vm.sp = 0) (hf : 2 ≤ fuel) :
    ∃ vm', runLoop P ins fuel base vm = runLoop P ins (fuel - 2) (base + 4) vm' ∧
      vm'.sp = 0 ∧ vm'.stack 0 = some o := by
  have h0 : ins[base]? = some 0 := by
    have := segAt_byte hseg 0 0 rfl
    simpa using this
  have h1 : ins[base + 1]? = some (idx / 256 % 256) := segAt_byte hseg 1 _ rfl
  have h2 : ins[base + 2]? = some (idx % 256) := segAt_byte hseg 2 _ rfl
  have h3 : ins[base + 3]? = some 2 := segAt_byte hseg 3 2 rfl
  rcases constStep P ins base fuel vm idx o h0 h1 h2 hidx (by omega) with
    ⟨hov, _⟩ | ⟨vm1, _, heq1, hsp1, hst1, _⟩
  · rw [StackSize, hsp] at hov
    omega
  · have hsp1' : vm1.sp = 1 := by rw [hsp1, hsp]
    rcases popStep P ins (base + 3) (fuel - 1) vm1 h3 (by omega) with
      ⟨hz, _⟩ | ⟨vm2, _, heq2, hsp2, hstk2⟩
    · omega
    · refine ⟨vm2, ?_, by omega, ?_⟩
      · rw [heq1, heq2]
        have hx : fuel - 1 - 1 = fuel - 2 := by omega
        rw [hx]
      · rw [hstk2, ← hsp]
        exact hst1

/-- Running a block of constInstr units whose truncated indices all resolve
to the Integer 0 pool entries. -/
theorem runConstBlock :
    ∀ (k b : Nat) (P : List Obj) (ins : List Nat) (base : Nat) (vm : VM) (fuel : Nat),
      SegAt ins base (constBlock b k) →
      (∀ j, j < k → P[(b + j) % 65536]? = some (.integer 0)) →
      vm.sp = 0 → 2 * k ≤ fuel →
      ∃ vm', runLoop P ins fuel base vm =
          runLoop P ins (fuel - 2 * k) (base + 4 * k) vm' ∧
        vm'.sp = 0 ∧
        vm'.stack 0 = (if k = 0 then vm.stack 0 else some (.integer 0))
  | 0, b, P, ins, base, vm, fuel, hseg, hpool, hsp, hf => by
    exact ⟨vm, by simp, hsp, by simp⟩
  | k + 1, b, P, ins, base, vm, fuel, hseg, hpool, hsp, hf => by
    have hsegU : SegAt ins base (constInstr b) := segAt_left (by rwa [← constBlock])
    have hsegB : SegAt ins (base + 4) (constBlock (b + 1) k) := by
      have := segAt_right (show SegAt ins base (constInstr b ++ constBlock (b + 1) k)
        from by rwa [← constBlock])
      simpa [constInstr] using this
    have hidx : P[b % 65536]? = some (Obj.integer 0) := by
      have := hpool 0 (by omega)
      simpa using this
    obtain ⟨vm1, heq1, hsp1, hst1⟩ :=
      runConstUnit P ins base fuel vm b (.integer 0) hsegU hidx hsp (by omega)
    obtain ⟨vm2, heq2, hsp2, hst2⟩ :=
      runConstBlock k (b + 1) P ins (base + 4) vm1 (fuel - 2) hsegB
        (fun j hj => by
          have := hpool (j + 1) (by omega)
          have harg : b + (j + 1) = b + 1 + j := by omega
          rwa [harg] at this)
        hsp1 (by omega)
    refine ⟨vm2, ?_, hsp2, ?_⟩
    · rw [heq1, heq2]
      have hx : fuel - 2 - 2 * k = fuel - 2 * (k + 1) := by omega
      have hy : base + 4 + 4 * k = base + 4 * (k + 1) := by omega
      rw [hx, hy]
    · rw [hst2]
      by_cases hk : k = 0
      · simp [hk, hst1]
      · simp [hk]

/-- C2 counterexample: the 65537-literal program compiles without error and
runs without error, its last expression statement is the literal 1 with
value 1, yet LastPoppedStackElem is the Integer 0: Make truncated the last
OpConstant operand (65536) to 16 bits, so the VM loaded constants[0]. -/
theorem big_pool_wrong_value :
    lastExprStmt bigProg = some (.IntegerLiteral 1) ∧
      evalExpr (.IntegerLiteral 1) = some 1 ∧
      compileProgram bigProg = .ok cBig ∧
      (∃ vm, RunVM cBig = .ok vm ∧
        LastPoppedStackElem vm = some (.integer 0)) ∧
      some (Obj.integer 0) ≠ some (Obj.integer 1) := by
  refine ⟨lastExprStmt_append_single _ _, rfl, compile_bigProg, ?_, by simp⟩
  have hpool : ∀ j, j < 65537 →
      (List.replicate 65536 (Obj.integer 0) ++ [Obj.integer 1])[(0 + j) % 65536]? =
        some (Obj.integer 0) := by
    intro j hj
    have hlt : (0 + j) % 65536 < 65536 := Nat.mod_lt _ (by omega)
    rw [List.getElem?_append, List.length_replicate, if_pos hlt]
    exact List.getElem?_replicate_of_lt hlt
  obtain ⟨vm', heq, hsp', hst'⟩ :=
    runConstBlock 65537 0 cBig.constants cBig.instructions 0 NewVM
      (cBig.instructions.length + 1) (segAt_refl _) hpool rfl
      (by rw [show cBig.instructions = constBlock 0 65537 from rfl, constBlock_length]; omega)
  refine ⟨vm', ?_, ?_⟩
  · rw [RunVM, heq]
    apply runLoop_exit
    · apply List.getElem?_eq_none
      rw [show cBig.instructions = constBlock 0 65537 from rfl, constBlock_length]
    · have hl : cBig.instructions.length = 4 * 65537 := by
        rw [show cBig.instructions = constBlock 0 65537 from rfl, constBlock_length]
      omega
  · rw [LastPoppedStackElem, hsp', hst']
    simp

end Monkey
